import Mathlib

/-!
# plussha: SHA-256 (`include/plussha/plussha256.hpp`)

A shallow embedding of the single-header SHA-256 implementation, followed by
theorems about it.

Conventions of the embedding:

* an `unsigned char` is a `Byte` (`Fin 256`); a store of an integer
  expression into one goes through `toByte` (reduction modulo 256);
* an `unsigned int` (the source's `Word`) is a natural number; every operation that can
  leave the 32-bit range is followed by `u32` (reduction modulo 2^32), an
  `unsigned long long` one by `u64`;
* a pointer into a byte buffer is the buffer (`List Byte`) together with an
  offset; a read outside the buffer yields `0`, so the functions are total
  (the C++ precondition is that the buffer holds `data_size` bytes);
* the signed loop counters (`int i`, `int t`) are natural numbers; for the
  block loop of `sha256` (`block_at`, `final_state`, `sha256`) this is exact as
  long as `i * 64` fits an `int`, that is for `data_size < 2^31 + 64`; the
  variants `block_at_int`, `final_state_int`, `sha256_int` compute that product
  in `int` and have no result (`none`) when it overflows;
* `std::vector` and C arrays are lists, an element store is `List.set`;
  storage that C++ leaves uninitialised starts as zeros.
-/

namespace plussha
namespace detail

/-! ## Machine integers -/

/-- An `unsigned char`. -/
abbrev Byte := Fin 256

/-- Conversion of an integer value to `unsigned char`. -/
def toByte (x : Nat) : Byte := ⟨x % 256, Nat.mod_lt x (by decide)⟩

/-- Value of an `unsigned int` expression: the result modulo 2^32. -/
def u32 (x : Nat) : Nat := x % 2 ^ 32

/-- Value of an `unsigned long long` expression: the result modulo 2^64. -/
def u64 (x : Nat) : Nat := x % 2 ^ 64

/-- Read of `mem[i]`; outside the buffer the read yields `0`. -/
def rd (mem : List Byte) (i : Nat) : Nat := (mem.getD i 0).val

/-! ## Constants -/

def kMsgSizeBytes : Nat := 8
def kWordBytes : Nat := 4
def kWordBits : Nat := 32
def kBlockBytes : Nat := 64

/-- The class `Block`: `Word w[16]`. -/
structure Block where
  w : List Nat
deriving DecidableEq, Repr

/-- The accessor `Block::operator[]`. -/
def Block.get (b : Block) (index : Nat) : Nat := b.w.getD index 0

/-- The default constructor `Block()`; the words are unspecified in C++, zeros here. -/
def Block.empty : Block := ⟨List.replicate 16 0⟩

/-- The constructor `Block(const unsigned char * data)`, where `data` points at
offset `off` of the buffer `mem`. -/
def Block.ofBytes (mem : List Byte) (off : Nat) : Block :=
  ⟨(List.range 16).map fun i =>
    let pt := off + i * kWordBytes
    (((rd mem (pt + 0) <<< 24) &&& 0xFF000000) |||
     ((rd mem (pt + 1) <<< 16) &&& 0x00FF0000) |||
     ((rd mem (pt + 2) <<< 8) &&& 0x0000FF00) |||
     ((rd mem (pt + 3)) &&& 0x00000FF))⟩

/-- The table `kK[64]`. -/
def kK : List Nat :=
  [0x428A2F98, 0x71374491, 0xB5C0FBCF, 0xE9B5DBA5,
   0x3956C25B, 0x59F111F1, 0x923F82A4, 0xAB1C5ED5,
   0xD807AA98, 0x12835B01, 0x243185BE, 0x550C7DC3,
   0x72BE5D74, 0x80DEB1FE, 0x9BDC06A7, 0xC19BF174,
   0xE49B69C1, 0xEFBE4786, 0x0FC19DC6, 0x240CA1CC,
   0x2DE92C6F, 0x4A7484AA, 0x5CB0A9DC, 0x76F988DA,
   0x983E5152, 0xA831C66D, 0xB00327C8, 0xBF597FC7,
   0xC6E00BF3, 0xD5A79147, 0x06CA6351, 0x14292967,
   0x27B70A85, 0x2E1B2138, 0x4D2C6DFC, 0x53380D13,
   0x650A7354, 0x766A0ABB, 0x81C2C92E, 0x92722C85,
   0xA2BFE8A1, 0xA81A664B, 0xC24B8B70, 0xC76C51A3,
   0xD192E819, 0xD6990624, 0xF40E3585, 0x106AA070,
   0x19A4C116, 0x1E376C08, 0x2748774C, 0x34B0BCB5,
   0x391C0CB3, 0x4ED8AA4A, 0x5B9CCA4F, 0x682E6FF3,
   0x748F82EE, 0x78A5636F, 0x84C87814, 0x8CC70208,
   0x90BEFFFA, 0xA4506CEB, 0xBEF9A3F7, 0xC67178F2]

/-- The table `kInitialHash[8]`. -/
def kInitialHash : List Nat :=
  [0x6A09E667, 0xBB67AE85, 0x3C6EF372, 0xA54FF53A,
   0x510E527F, 0x9B05688C, 0x1F83D9AB, 0x5BE0CD19]

/-! ## Word functions -/

/-- Source: `(x >> n) | (x << (kWordBits - n))` on `unsigned int`. -/
def rotr (n : Nat) (x : Nat) : Nat := (x >>> n) ||| u32 (x <<< (kWordBits - n))

/-- Source: `(x >> n)`. -/
def shr (n : Nat) (x : Nat) : Nat := x >>> n

/-- Source: `(x & y) ^ (~x & z)`; `~x` flips the 32 bits of `x`. -/
def ch (x y z : Nat) : Nat := (x &&& y) ^^^ ((x ^^^ 0xFFFFFFFF) &&& z)

/-- Source: `(x & y) ^ (x & z) ^ (y & z)`. -/
def maj (x y z : Nat) : Nat := (x &&& y) ^^^ (x &&& z) ^^^ (y &&& z)

def l_sigma_0 (x : Nat) : Nat := rotr 2 x ^^^ rotr 13 x ^^^ rotr 22 x

def l_sigma_1 (x : Nat) : Nat := rotr 6 x ^^^ rotr 11 x ^^^ rotr 25 x

def s_sigma_0 (x : Nat) : Nat := rotr 7 x ^^^ rotr 18 x ^^^ shr 3 x

def s_sigma_1 (x : Nat) : Nat := rotr 17 x ^^^ rotr 19 x ^^^ shr 10 x

/-- Source: `(x + y)` on `unsigned int`. -/
def add (x y : Nat) : Nat := u32 (x + y)

/-! ## Padding -/

/-- The local `padding_size` of `get_padding` after its two assignments. -/
def padding_size (data_size : Nat) : Nat :=
  let padding_size := u32 (kBlockBytes - u64 data_size % kBlockBytes)
  u32 (padding_size + (if padding_size ≥ kMsgSizeBytes + 1 then 0 else kBlockBytes))

/-- The local `data_bits` of `get_padding`: `data_size * 8` in 64 bits. -/
def data_bits (data_size : Nat) : Nat := u64 (u64 data_size * 8)

/-- The function `get_padding`; the element stores are in the order of the source. -/
def get_padding (data_size : Nat) : List Byte :=
  let padding_size := padding_size data_size
  let padding := List.replicate padding_size (0 : Byte)
  let padding := padding.set 0 (toByte 0x80)
  let data_bits := data_bits data_size
  let padding := padding.set (padding_size - 7) (toByte ((data_bits >>> 56) &&& 0xFF))
  let padding := padding.set (padding_size - 6) (toByte ((data_bits >>> 48) &&& 0xFF))
  let padding := padding.set (padding_size - 8) (toByte ((data_bits >>> 40) &&& 0xFF))
  let padding := padding.set (padding_size - 5) (toByte ((data_bits >>> 32) &&& 0xFF))
  let padding := padding.set (padding_size - 4) (toByte ((data_bits >>> 24) &&& 0xFF))
  let padding := padding.set (padding_size - 3) (toByte ((data_bits >>> 16) &&& 0xFF))
  let padding := padding.set (padding_size - 2) (toByte ((data_bits >>> 8) &&& 0xFF))
  let padding := padding.set (padding_size - 1) (toByte (data_bits &&& 0xFF))
  padding

end detail

/-! ## The digest function -/

/-- The enumeration `Error`. -/
inductive Error where
  | kErrorOk
  | kErrorFailed
deriving DecidableEq, Repr

open detail

/-- The call `memcpy(dst + d, src + s, n)`: `n` bytes of `src` from offset `s`
replace the bytes of `dst` from offset `d`. -/
def memcpy (dst : List Byte) (d : Nat) (src : List Byte) (s n : Nat) : List Byte :=
  dst.take d ++ (List.range n).map (fun j => src.getD (s + j) 0) ++ dst.drop (d + n)

/-- The initial `h_`: a vector of 8 words filled from `kInitialHash`. -/
def init_state : List Nat :=
  (List.range 8).foldl (fun h_ i => h_.set i (kInitialHash.getD i 0)) (List.replicate 8 0)

/-- The local `block_count`: `static_cast<unsigned int>(data_size / kBlockBytes)`. -/
def block_count (data_size : Nat) : Nat := u32 (u64 data_size / kBlockBytes)

/-- The local `rem_size`. -/
def rem_size (data_size : Nat) : Nat := u64 data_size % kBlockBytes

/-- The scratch array `rem_data` after the two `memcpy` calls. -/
def rem_data (data : List Byte) (data_size : Nat) : List Byte :=
  let padding := get_padding data_size
  let rem_data := List.replicate kBlockBytes (0 : Byte)
  let rem_size := rem_size data_size
  let rem_data :=
    if rem_size ≠ 0 then memcpy rem_data 0 data (u64 data_size - rem_size) rem_size
    else rem_data
  memcpy rem_data rem_size padding 0 (kBlockBytes - rem_size)

/-- The vector `last_blocks` as the block loop finds it. -/
def last_blocks (data : List Byte) (data_size : Nat) : List Block :=
  let padding := get_padding data_size
  let last_blocks := List.replicate (if padding.length ≤ kBlockBytes then 1 else 2) Block.empty
  let last_blocks := last_blocks.set 0 (Block.ofBytes (rem_data data data_size) 0)
  if last_blocks.length ≥ 2 then
    last_blocks.set 1 (Block.ofBytes padding (padding.length - kBlockBytes))
  else last_blocks

/-- One pass of the first inner loop: the store into `w[t]`. -/
def schedule_step (block : Block) (w : List Nat) (t : Nat) : List Nat :=
  if t < 16 then w.set t (block.get t)
  else w.set t
    (u32 (u32 (u32 (s_sigma_1 (w.getD (t - 2) 0) + w.getD (t - 7) 0) +
      s_sigma_0 (w.getD (t - 15) 0)) + w.getD (t - 16) 0))

/-- The message schedule `w[64]` of one block (the first inner loop). -/
def schedule (block : Block) : List Nat :=
  (List.range 64).foldl (schedule_step block) (List.replicate 64 0)

/-- The working variables `a` .. `h`. -/
structure Regs where
  a : Nat
  b : Nat
  c : Nat
  d : Nat
  e : Nat
  f : Nat
  g : Nat
  h : Nat
deriving DecidableEq, Repr

/-- One pass of the second inner loop (round `t`). -/
def round_step (w : List Nat) (r : Regs) (t : Nat) : Regs :=
  let t1 := u32 (u32 (u32 (u32 (r.h + l_sigma_1 r.e) + ch r.e r.f r.g) + kK.getD t 0) + w.getD t 0)
  let t2 := u32 (l_sigma_0 r.a + maj r.a r.b r.c)
  { h := r.g, g := r.f, f := r.e, e := u32 (r.d + t1),
    d := r.c, c := r.b, b := r.a, a := u32 (t1 + t2) }

/-- The body of the block loop once `block` is chosen: schedule, 64 rounds and
the addition of the working variables into `h_`. -/
def process_block (h_ : List Nat) (block : Block) : List Nat :=
  let r0 : Regs :=
    { a := h_.getD 0 0, b := h_.getD 1 0, c := h_.getD 2 0, d := h_.getD 3 0,
      e := h_.getD 4 0, f := h_.getD 5 0, g := h_.getD 6 0, h := h_.getD 7 0 }
  let w := schedule block
  let r := (List.range 64).foldl (round_step w) r0
  let h_ := h_.set 0 (u32 (r.a + h_.getD 0 0))
  let h_ := h_.set 1 (u32 (r.b + h_.getD 1 0))
  let h_ := h_.set 2 (u32 (r.c + h_.getD 2 0))
  let h_ := h_.set 3 (u32 (r.d + h_.getD 3 0))
  let h_ := h_.set 4 (u32 (r.e + h_.getD 4 0))
  let h_ := h_.set 5 (u32 (r.f + h_.getD 5 0))
  let h_ := h_.set 6 (u32 (r.g + h_.getD 6 0))
  let h_ := h_.set 7 (u32 (r.h + h_.getD 7 0))
  h_

/-- The block that pass `i` of the block loop works on; the offset `i * kBlockBytes` is not
reduced, which is exact while it fits an `int` (see `block_at_int`). -/
def block_at (data : List Byte) (data_size : Nat) (i : Nat) : Block :=
  if i < block_count data_size then Block.ofBytes data (i * kBlockBytes)
  else (last_blocks data data_size).getD (i - block_count data_size) Block.empty

/-- The vector `h_` when the block loop has ended, for a loop in which no offset overflows
(see `final_state_int`). -/
def final_state (data : List Byte) (data_size : Nat) : List Nat :=
  (List.range (block_count data_size + (last_blocks data data_size).length)).foldl
    (fun h_ i => process_block h_ (block_at data data_size i)) init_state

/-- The last loop: the stores into `(*hash)[32]`, whose content on entry is `hash`. -/
def write_hash (h_ : List Nat) (hash : List Byte) : List Byte :=
  (List.range 8).foldl
    (fun hash i =>
      let hash := hash.set (i * 4 + 0) (toByte ((h_.getD i 0 >>> 24) &&& 0xFF))
      let hash := hash.set (i * 4 + 1) (toByte ((h_.getD i 0 >>> 16) &&& 0xFF))
      let hash := hash.set (i * 4 + 2) (toByte ((h_.getD i 0 >>> 8) &&& 0xFF))
      hash.set (i * 4 + 3) (toByte (h_.getD i 0 &&& 0xFF)))
    hash

/-- The function `sha256(data, data_size, hash)`: the returned code and the content
of `*hash` on return; `hash` is the content of the 32-byte output array on entry. -/
def sha256 (data : List Byte) (data_size : Nat) (hash : List Byte) : Error × List Byte :=
  (Error.kErrorOk, write_hash (final_state data data_size) hash)

/-! ### The block loop with the `int` arithmetic of the source -/

/-- The product of two `int` values that are not negative: defined when it fits an `int`,
that is below 2^31; otherwise the behaviour of the source is undefined (`none`). -/
def int_mul (a b : Nat) : Option Nat := if a * b < 2 ^ 31 then some (a * b) else none

/-- The block of pass `i` with the offset `i * kBlockBytes` computed in `int` as in the
source; `none` when that product overflows. -/
def block_at_int (data : List Byte) (data_size : Nat) (i : Nat) : Option Block :=
  if i < block_count data_size then (int_mul i kBlockBytes).map (Block.ofBytes data)
  else some ((last_blocks data data_size).getD (i - block_count data_size) Block.empty)

/-- The block loop with the `int` arithmetic of the source: the vector `h_` when the loop has
ended, `none` when a pass meets an overflow. -/
def final_state_int (data : List Byte) (data_size : Nat) : Option (List Nat) :=
  (List.range (block_count data_size + (last_blocks data data_size).length)).foldl
    (fun h_ i => h_.bind fun h => (block_at_int data data_size i).map (process_block h))
    (some init_state)

/-- The function `sha256` with the `int` arithmetic of the source: the returned code and the
content of `*hash` on return, `none` when the call has no defined result. -/
def sha256_int (data : List Byte) (data_size : Nat) (hash : List Byte) :
    Option (Error × List Byte) :=
  (final_state_int data data_size).map fun h_ => (Error.kErrorOk, write_hash h_ hash)

/-! ## Reference: SHA-256 after FIPS 180-4, on byte strings

Written from the standard, not from the code: padding (5.1.1), parsing into
blocks of sixteen big-endian words (5.2.1), message schedule and compression
(6.2.2), digest as the big-endian bytes of the eight final words. The word
functions `Ch`, `Maj`, `Σ`, `σ` (4.1.2) and the constant tables (4.2.2, 5.3.3)
are those above. -/

namespace fips

/-- The least `k ≥ 0` such that `len + 1 + k` is congruent to 56 modulo 64. -/
def zero_count (len : Nat) : Nat :=
  ((List.range 64).find? fun k => (len + 1 + k) % 64 = 56).getD 0

/-- The 8 bytes of `n` as a big-endian 64-bit number. -/
def be64 (n : Nat) : List Byte :=
  (List.range 8).map fun j => toByte (n / 2 ^ (8 * (7 - j)))

/-- The padded message: the message, `0x80`, the zero bytes, the bit length. -/
def pad (msg : List Byte) : List Byte :=
  msg ++ [toByte 0x80] ++ List.replicate (zero_count msg.length) 0 ++ be64 (8 * msg.length)

/-- The 64-byte blocks of a byte string, in order. -/
def blocks (m : List Byte) : List (List Byte) :=
  (List.range (m.length / 64)).map fun i => (m.drop (64 * i)).take 64

/-- The sixteen words of a 64-byte block, each decoded big-endian. -/
def words (blk : List Byte) : List Nat :=
  (List.range 16).map fun j =>
    rd blk (4 * j) * 2 ^ 24 + rd blk (4 * j + 1) * 2 ^ 16 + rd blk (4 * j + 2) * 2 ^ 8 +
      rd blk (4 * j + 3)

/-- The 4 bytes of a 32-bit word, most significant first. -/
def word_bytes (x : Nat) : List Byte :=
  [toByte (x / 2 ^ 24), toByte (x / 2 ^ 16), toByte (x / 2 ^ 8), toByte x]

/-- The schedule grown from `W` by `n` more words, each
`σ1(W[t-2]) + W[t-7] + σ0(W[t-15]) + W[t-16]` modulo 2^32 with `t` the next index. -/
def extend : Nat → List Nat → List Nat
  | 0, W => W
  | n + 1, W =>
    let t := W.length
    extend n (W ++ [(s_sigma_1 (W.getD (t - 2) 0) + W.getD (t - 7) 0 +
      s_sigma_0 (W.getD (t - 15) 0) + W.getD (t - 16) 0) % 2 ^ 32])

/-- The message schedule `W_0 .. W_63` of a block of sixteen words. -/
def message_schedule (M : List Nat) : List Nat := extend 48 M

/-- Round `t` on the working variables `[a, b, c, d, e, f, g, h]`. -/
def step (W : List Nat) (s : List Nat) (t : Nat) : List Nat :=
  match s with
  | [a, b, c, d, e, f, g, h] =>
    let T1 := (h + l_sigma_1 e + ch e f g + kK.getD t 0 + W.getD t 0) % 2 ^ 32
    let T2 := (l_sigma_0 a + maj a b c) % 2 ^ 32
    [(T1 + T2) % 2 ^ 32, a, b, c, (d + T1) % 2 ^ 32, e, f, g]
  | _ => s

/-- The compression function: 64 rounds from `H`, then the word-wise sum with `H`. -/
def compress (H : List Nat) (M : List Nat) : List Nat :=
  List.zipWith (fun x y => (x + y) % 2 ^ 32)
    ((List.range 64).foldl (step (message_schedule M)) H) H

/-- The eight final hash words of a message. -/
def hash (msg : List Byte) : List Nat :=
  (blocks (pad msg)).foldl (fun H blk => compress H (words blk)) kInitialHash

/-- The SHA-256 digest of a message: 32 bytes. -/
def sha256 (msg : List Byte) : List Byte :=
  (hash msg).flatMap word_bytes

end fips

/-! ## Auxiliary definitions -/

/-- The bytes that `write_hash` stores, in order of their index. -/
def state_bytes (h_ : List Nat) : List Byte :=
  (List.range 8).flatMap fun i =>
    [toByte ((h_.getD i 0 >>> 24) &&& 0xFF), toByte ((h_.getD i 0 >>> 16) &&& 0xFF),
     toByte ((h_.getD i 0 >>> 8) &&& 0xFF), toByte (h_.getD i 0 &&& 0xFF)]

/-- The working variables as the list `[a, b, c, d, e, f, g, h]`. -/
def Regs.toList (r : Regs) : List Nat := [r.a, r.b, r.c, r.d, r.e, r.f, r.g, r.h]

/-- The bytes of the ASCII string `abc`. -/
def abc : List Byte := [0x61, 0x62, 0x63]

/-- The 56 ASCII bytes `abcdbcdecdefdefgefghfghighijhijkijkljklmklmnlmnomnopnopq`. -/
def msg56 : List Byte :=
  [0x61, 0x62, 0x63, 0x64, 0x62, 0x63, 0x64, 0x65, 0x63, 0x64, 0x65, 0x66, 0x64, 0x65,
   0x66, 0x67, 0x65, 0x66, 0x67, 0x68, 0x66, 0x67, 0x68, 0x69, 0x67, 0x68, 0x69, 0x6a,
   0x68, 0x69, 0x6a, 0x6b, 0x69, 0x6a, 0x6b, 0x6c, 0x6a, 0x6b, 0x6c, 0x6d, 0x6b, 0x6c,
   0x6d, 0x6e, 0x6c, 0x6d, 0x6e, 0x6f, 0x6d, 0x6e, 0x6f, 0x70, 0x6e, 0x6f, 0x70, 0x71]

/-- Primality by trial division: `n ≥ 2` and no `m` with `2 ≤ m < n` divides `n`. -/
def is_prime (n : Nat) : Bool :=
  decide (2 ≤ n) && (List.range n).all fun m => decide (m < 2 ∨ n % m ≠ 0)

/-- The primes below 312 in increasing order; entry `i` is the `(i+1)`-th prime. -/
def primes : List Nat := (List.range 312).filter is_prime

/-- The integer part of the cube root, by search: the number of `r ≥ 1` with `r^3 ≤ n`. -/
def icbrt (n : Nat) : Nat := ((List.range (n + 1)).filter fun r => 1 ≤ r ∧ r ^ 3 ≤ n).length

/-- The integer part of the square root, by search: the number of `r ≥ 1` with `r^2 ≤ n`. -/
def isqrt (n : Nat) : Nat := ((List.range (n + 1)).filter fun r => 1 ≤ r ∧ r ^ 2 ≤ n).length

end plussha

open plussha plussha.detail

/-! ## Sizes -/

theorem u64_mod_64 (L : Nat) : u64 L % 64 = L % 64 := by
  unfold u64; omega

theorem padding_size_eq (L : Nat) :
    padding_size L = if L % 64 ≤ 55 then 64 - L % 64 else 128 - L % 64 := by
  have h := u64_mod_64 L
  have hr : L % 64 < 64 := Nat.mod_lt _ (by decide)
  simp only [padding_size, kBlockBytes, kMsgSizeBytes, u32, h, Nat.reducePow]
  generalize L % 64 = r at hr ⊢
  have h1 : (64 - r) % 4294967296 = 64 - r := Nat.mod_eq_of_lt (by omega)
  rw [h1]
  split_ifs <;> omega

theorem length_get_padding (L : Nat) : (get_padding L).length = padding_size L := by
  simp [get_padding]

/-! ## Bytes and words -/

theorem toByte_val (x : Nat) : (toByte x).val = x % 256 := rfl

theorem rd_lt (mem : List Byte) (i : Nat) : rd mem i < 256 := (mem.getD i 0).isLt

theorem and_ff (x : Nat) : x &&& 0xFF = x % 256 :=
  Nat.and_pow_two_sub_one_eq_mod x 8

set_option maxRecDepth 100000 in
theorem shl24_mask : ∀ b : Fin 256, (b.val <<< 24) &&& 0xFF000000 = b.val * 2 ^ 24 := by
  decide!

set_option maxRecDepth 100000 in
theorem shl16_mask : ∀ b : Fin 256, (b.val <<< 16) &&& 0x00FF0000 = b.val * 2 ^ 16 := by
  decide!

set_option maxRecDepth 100000 in
theorem shl8_mask : ∀ b : Fin 256, (b.val <<< 8) &&& 0x0000FF00 = b.val * 2 ^ 8 := by
  decide!

/-- The expression of the `Block` constructor is the big-endian value of four bytes. -/
theorem be_word_eq (b0 b1 b2 b3 : Nat) (h0 : b0 < 256) (h1 : b1 < 256) (h2 : b2 < 256)
    (h3 : b3 < 256) :
    ((b0 <<< 24) &&& 0xFF000000) ||| ((b1 <<< 16) &&& 0x00FF0000) |||
      ((b2 <<< 8) &&& 0x0000FF00) ||| (b3 &&& 0x00000FF) =
    b0 * 2 ^ 24 + b1 * 2 ^ 16 + b2 * 2 ^ 8 + b3 := by
  have e0 := shl24_mask ⟨b0, h0⟩
  have e1 := shl16_mask ⟨b1, h1⟩
  have e2 := shl8_mask ⟨b2, h2⟩
  have e3 : b3 &&& 0x00000FF = b3 := by rw [and_ff]; exact Nat.mod_eq_of_lt h3
  simp only at e0 e1 e2
  rw [e0, e1, e2, e3]
  have s1 : b0 * 2 ^ 24 ||| b1 * 2 ^ 16 = b0 * 2 ^ 24 + b1 * 2 ^ 16 := by
    have := Nat.mul_add_lt_is_or (show b1 * 2 ^ 16 < 2 ^ 24 by omega) b0
    rw [Nat.mul_comm (2 ^ 24) b0] at this
    exact this.symm
  have s2 : (b0 * 2 ^ 24 + b1 * 2 ^ 16) ||| b2 * 2 ^ 8 =
      b0 * 2 ^ 24 + b1 * 2 ^ 16 + b2 * 2 ^ 8 := by
    have := Nat.mul_add_lt_is_or (show b2 * 2 ^ 8 < 2 ^ 16 by omega) (b0 * 2 ^ 8 + b1)
    have e : 2 ^ 16 * (b0 * 2 ^ 8 + b1) = b0 * 2 ^ 24 + b1 * 2 ^ 16 := by ring
    rw [e] at this
    exact this.symm
  have s3 : (b0 * 2 ^ 24 + b1 * 2 ^ 16 + b2 * 2 ^ 8) ||| b3 =
      b0 * 2 ^ 24 + b1 * 2 ^ 16 + b2 * 2 ^ 8 + b3 := by
    have := Nat.mul_add_lt_is_or (show b3 < 2 ^ 8 by omega) (b0 * 2 ^ 16 + b1 * 2 ^ 8 + b2)
    have e : 2 ^ 8 * (b0 * 2 ^ 16 + b1 * 2 ^ 8 + b2) =
        b0 * 2 ^ 24 + b1 * 2 ^ 16 + b2 * 2 ^ 8 := by ring
    rw [e] at this
    exact this.symm
  rw [s1, s2, s3]

/-- The words of `Block.ofBytes` in arithmetic form. -/
theorem Block_ofBytes_w (mem : List Byte) (off : Nat) :
    (Block.ofBytes mem off).w = (List.range 16).map fun i =>
      rd mem (off + 4 * i) * 2 ^ 24 + rd mem (off + 4 * i + 1) * 2 ^ 16 +
        rd mem (off + 4 * i + 2) * 2 ^ 8 + rd mem (off + 4 * i + 3) := by
  unfold Block.ofBytes
  simp only
  apply List.map_congr_left
  intro i _
  simp only [kWordBytes, Nat.add_zero, Nat.mul_comm i 4]
  exact be_word_eq _ _ _ _ (rd_lt _ _) (rd_lt _ _) (rd_lt _ _) (rd_lt _ _)

theorem Block_ofBytes_length (mem : List Byte) (off : Nat) :
    (Block.ofBytes mem off).w.length = 16 := by
  simp [Block.ofBytes]

theorem word_bytes_be (b0 b1 b2 b3 : Byte) :
    fips.word_bytes (b0.val * 2 ^ 24 + b1.val * 2 ^ 16 + b2.val * 2 ^ 8 + b3.val) =
      [b0, b1, b2, b3] := by
  have h0 := b0.isLt
  have h1 := b1.isLt
  have h2 := b2.isLt
  have h3 := b3.isLt
  simp only [fips.word_bytes, List.cons.injEq, and_true]
  refine ⟨?_, ?_, ?_, ?_⟩ <;> apply Fin.ext <;> rw [toByte_val] <;> omega

/-! ## Lists cut into groups of four -/

theorem take_add_four {α : Type} (l : List α) (d : α) (k : Nat) (h : k + 4 ≤ l.length) :
    l.take (k + 4) =
      l.take k ++ [l.getD k d, l.getD (k + 1) d, l.getD (k + 2) d, l.getD (k + 3) d] := by
  have h0 : k < l.length := by omega
  have h1 : k + 1 < l.length := by omega
  have h2 : k + 2 < l.length := by omega
  have h3 : k + 3 < l.length := by omega
  rw [show k + 4 = (((k + 1) + 1) + 1) + 1 from rfl]
  rw [List.take_succ, List.take_succ, List.take_succ, List.take_succ]
  simp only [List.getD_eq_getElem?_getD, List.getElem?_eq_getElem, h0, h1, h2, h3,
    Option.toList, Option.getD_some, List.append_assoc, List.singleton_append,
    show k + 1 + 1 = k + 2 from rfl, show k + 2 + 1 = k + 3 from rfl]
  rfl

theorem flatMap_four_take {α : Type} (l : List α) (d : α) (n : Nat) (h : 4 * n ≤ l.length) :
    ((List.range n).flatMap fun i =>
      [l.getD (4 * i) d, l.getD (4 * i + 1) d, l.getD (4 * i + 2) d, l.getD (4 * i + 3) d]) =
    l.take (4 * n) := by
  induction n with
  | zero => simp
  | succ n ih =>
    rw [List.range_succ, List.flatMap_append, ih (by omega)]
    rw [show 4 * (n + 1) = 4 * n + 4 by ring, take_add_four l d (4 * n) (by omega)]
    simp

theorem flatMap_four {α : Type} (l : List α) (d : α) (n : Nat) (h : l.length = 4 * n) :
    ((List.range n).flatMap fun i =>
      [l.getD (4 * i) d, l.getD (4 * i + 1) d, l.getD (4 * i + 2) d, l.getD (4 * i + 3) d]) =
    l := by
  rw [flatMap_four_take l d n (by omega), ← h, List.take_length]

/-- Re-encoding the words of `Block.ofBytes` gives the 64 bytes read. -/
theorem Block_ofBytes_bytes (b : List Byte) (hb : b.length = 64) :
    (Block.ofBytes b 0).w.flatMap fips.word_bytes = b := by
  rw [Block_ofBytes_w, List.flatMap_map]
  have e : (fun i : Nat => fips.word_bytes (rd b (0 + 4 * i) * 2 ^ 24 + rd b (0 + 4 * i + 1) * 2 ^ 16 +
        rd b (0 + 4 * i + 2) * 2 ^ 8 + rd b (0 + 4 * i + 3))) =
      fun i => [b.getD (4 * i) 0, b.getD (4 * i + 1) 0, b.getD (4 * i + 2) 0,
        b.getD (4 * i + 3) 0] := by
    funext i
    simp only [Nat.zero_add, rd]
    exact word_bytes_be _ _ _ _
  rw [e]
  exact flatMap_four b 0 16 hb

/-! ## The output loop -/

theorem list_length_32 {α : Type} (l : List α) (hl : l.length = 32) :
    ∃ a : Fin 32 → α, l = List.ofFn a := by
  refine ⟨fun i => l.get ⟨i.val, by rw [hl]; exact i.isLt⟩, ?_⟩
  apply List.ext_get
  · simp [hl]
  · intro n h1 h2
    simp only [List.get_eq_getElem, List.getElem_ofFn]

theorem write_hash_eq (h_ : List Nat) (hash : List Byte) (hl : hash.length = 32) :
    write_hash h_ hash = state_bytes h_ := by
  obtain ⟨a, rfl⟩ := list_length_32 hash hl
  simp [write_hash, state_bytes, List.range, List.range.loop, List.ofFn, Fin.foldr,
    Fin.foldr.loop]

theorem toByte_and (x : Nat) : toByte (x &&& 0xFF) = toByte x := by
  apply Fin.ext
  rw [toByte_val, toByte_val, and_ff, Nat.mod_mod]

theorem state_bytes_eq (h_ : List Nat) :
    state_bytes h_ = (List.range 8).flatMap fun i => fips.word_bytes (h_.getD i 0) := by
  simp only [state_bytes, fips.word_bytes, toByte_and, Nat.shiftRight_eq_div_pow]

theorem state_bytes_of_length (h_ : List Nat) (h : h_.length = 8) :
    state_bytes h_ = h_.flatMap fips.word_bytes := by
  rw [state_bytes_eq]
  have e : h_ = (List.range 8).map fun i => h_.getD i 0 := by
    apply List.ext_getElem?
    intro n
    by_cases hn : n < 8
    · have hn2 : n < h_.length := by omega
      simp [hn, List.getD_eq_getElem?_getD, List.getElem?_eq_getElem, hn2]
    · have hn2 : h_.length ≤ n := by omega
      have hn3 : (List.range 8).length ≤ n := by simp; omega
      simp [List.getElem?_eq_none hn2, List.getElem?_eq_none hn3]
  conv_rhs => rw [e]
  rw [List.flatMap_map]

/-! ## Schedule and compression against the reference -/

theorem u32_lt (x : Nat) : u32 x < 2 ^ 32 := Nat.mod_lt x (by decide)

theorem set_append_zeros (E : List Nat) (n t v : Nat) (ht : E.length = t) :
    (E ++ List.replicate (n + 1) 0).set t v = (E ++ [v]) ++ List.replicate n 0 := by
  subst ht
  rw [List.set_append_right _ _ (Nat.le_refl _)]
  simp [List.replicate_succ]

theorem getD_append_zeros (E : List Nat) (n i : Nat) (hi : i < E.length) :
    (E ++ List.replicate n 0).getD i 0 = E.getD i 0 := by
  rw [List.getD_append _ _ _ _ hi]

theorem schedule_head (block : Block) (hb : block.w.length = 16) (t : Nat) (ht : t ≤ 16) :
    (List.range t).foldl (schedule_step block) (List.replicate 64 0) =
      block.w.take t ++ List.replicate (64 - t) 0 := by
  induction t with
  | zero => simp
  | succ t ih =>
    rw [List.range_succ, List.foldl_append, ih (by omega)]
    have h1 : t < 16 := by omega
    simp only [List.foldl_cons, List.foldl_nil, schedule_step, h1, if_true]
    rw [show 64 - t = (64 - (t + 1)) + 1 by omega]
    rw [set_append_zeros _ _ _ _ (by rw [List.length_take]; omega)]
    congr 1
    rw [List.take_succ, Block.get, List.getD_eq_getElem?_getD,
      List.getElem?_eq_getElem (by omega)]
    rfl

theorem schedule_tail (block : Block) (hb : block.w.length = 16) (k : Nat) (hk : k ≤ 48) :
    ∃ E : List Nat, E.length = 16 + k ∧
      (List.range (16 + k)).foldl (schedule_step block) (List.replicate 64 0) =
        E ++ List.replicate (48 - k) 0 ∧
      fips.extend (48 - k) E = fips.message_schedule block.w := by
  induction k with
  | zero =>
    refine ⟨block.w, hb, ?_, rfl⟩
    rw [schedule_head block hb 16 (Nat.le_refl _), ← hb, List.take_length]
    simp [hb]
  | succ k ih =>
    obtain ⟨E, hE, hf, hx⟩ := ih (by omega)
    have h16 : ¬ (16 + k < 16) := by omega
    refine ⟨E ++ [(s_sigma_1 (E.getD (E.length - 2) 0) + E.getD (E.length - 7) 0 +
      s_sigma_0 (E.getD (E.length - 15) 0) + E.getD (E.length - 16) 0) % 2 ^ 32], ?_, ?_, ?_⟩
    · simp [hE]; omega
    · rw [show 16 + (k + 1) = (16 + k) + 1 from rfl, List.range_succ, List.foldl_append, hf]
      simp only [List.foldl_cons, List.foldl_nil, schedule_step, h16, if_false]
      rw [getD_append_zeros _ _ _ (by omega), getD_append_zeros _ _ _ (by omega),
        getD_append_zeros _ _ _ (by omega), getD_append_zeros _ _ _ (by omega)]
      rw [show 48 - k = (48 - (k + 1)) + 1 by omega]
      rw [set_append_zeros _ _ _ _ hE, hE]
      have hv : ∀ x y z v : Nat, u32 (u32 (u32 (x + y) + z) + v) = (x + y + z + v) % 2 ^ 32 := by
        intro x y z v
        simp only [u32]
        omega
      rw [hv]
    · rw [← hx, show 48 - k = (48 - (k + 1)) + 1 by omega]
      rfl

/-- The first inner loop computes the message schedule of the standard. -/
theorem schedule_eq (block : Block) (hb : block.w.length = 16) :
    schedule block = fips.message_schedule block.w := by
  obtain ⟨E, _, hf, hx⟩ := schedule_tail block hb 48 (Nat.le_refl _)
  have : schedule block = E := by
    unfold schedule
    rw [show (64 : Nat) = 16 + 48 from rfl, hf]
    simp
  rw [this, ← hx]
  rfl

theorem round_toList (w : List Nat) (r : Regs) (t : Nat) :
    (round_step w r t).toList = fips.step w r.toList t := by
  simp only [round_step, Regs.toList, fips.step, u32, List.cons.injEq, and_true, true_and]
  refine ⟨?_, ?_⟩ <;> omega

theorem rounds_toList (w : List Nat) (ts : List Nat) (r : Regs) :
    (ts.foldl (round_step w) r).toList = ts.foldl (fips.step w) r.toList := by
  induction ts generalizing r with
  | nil => rfl
  | cons t ts ih => rw [List.foldl_cons, List.foldl_cons, ih, round_toList]

theorem list_length_8 (l : List Nat) (hl : l.length = 8) :
    ∃ a b c d e f g h, l = [a, b, c, d, e, f, g, h] := by
  rcases l with _ | ⟨a, _ | ⟨b, _ | ⟨c, _ | ⟨d, _ | ⟨e, _ | ⟨f, _ | ⟨g, _ | ⟨h, _ | ⟨i, l⟩⟩⟩⟩⟩⟩⟩⟩⟩ <;>
    simp at hl
  exact ⟨a, b, c, d, e, f, g, h, rfl⟩

/-- The body of the block loop is the compression function of the standard. -/
theorem process_block_eq (h_ : List Nat) (block : Block) (hh : h_.length = 8)
    (hb : block.w.length = 16) :
    process_block h_ block = fips.compress h_ block.w := by
  obtain ⟨a, b, c, d, e, f, g, h, rfl⟩ := list_length_8 h_ hh
  have hr := rounds_toList (schedule block) (List.range 64)
    { a := a, b := b, c := c, d := d, e := e, f := f, g := g, h := h }
  rw [schedule_eq block hb] at hr
  simp only [process_block, fips.compress, List.getD_cons_zero, List.getD_cons_succ]
  rw [schedule_eq block hb]
  simp only [Regs.toList] at hr
  rw [← hr]
  simp [u32]

theorem process_block_length (h_ : List Nat) (block : Block) :
    (process_block h_ block).length = h_.length := by
  simp [process_block]

/-! ## The padding in closed form -/

theorem replicate_split (q : Nat) :
    List.replicate (q + 9) (0 : Byte) =
      0 :: (List.replicate q 0 ++ [0, 0, 0, 0, 0, 0, 0, 0]) := by
  rw [show q + 9 = (q + 8) + 1 from rfl, List.replicate_succ, List.replicate_add]
  rfl

theorem set_tail8 (Z : List Byte) (q : Nat) (hq : Z.length = q) (x : Byte)
    (a0 a1 a2 a3 a4 a5 a6 a7 b0 b1 b2 b3 b4 b5 b6 b7 : Byte) :
    ((((((((x :: (Z ++ [a0, a1, a2, a3, a4, a5, a6, a7])).set (q + 9 - 7) b1).set (q + 9 - 6)
      b2).set (q + 9 - 8) b0).set (q + 9 - 5) b3).set (q + 9 - 4) b4).set (q + 9 - 3) b5).set
      (q + 9 - 2) b6).set (q + 9 - 1) b7 =
    x :: (Z ++ [b0, b1, b2, b3, b4, b5, b6, b7]) := by
  subst hq
  simp only [show Z.length + 9 - 7 = (Z.length + 1) + 1 by omega,
    show Z.length + 9 - 6 = (Z.length + 2) + 1 by omega,
    show Z.length + 9 - 8 = (Z.length + 0) + 1 by omega,
    show Z.length + 9 - 5 = (Z.length + 3) + 1 by omega,
    show Z.length + 9 - 4 = (Z.length + 4) + 1 by omega,
    show Z.length + 9 - 3 = (Z.length + 5) + 1 by omega,
    show Z.length + 9 - 2 = (Z.length + 6) + 1 by omega,
    show Z.length + 9 - 1 = (Z.length + 7) + 1 by omega,
    List.set_cons_succ]
  congr 1
  repeat rw [List.set_append_right _ _ (by omega)]
  simp

/-- The vector built by `get_padding`, element by element: the length bytes of
shifts 40, 56 and 48 come in this order. -/
theorem get_padding_eq (L : Nat) :
    get_padding L = toByte 0x80 :: (List.replicate (padding_size L - 9) (0 : Byte) ++
      [toByte ((data_bits L >>> 40) &&& 0xFF), toByte ((data_bits L >>> 56) &&& 0xFF),
       toByte ((data_bits L >>> 48) &&& 0xFF), toByte ((data_bits L >>> 32) &&& 0xFF),
       toByte ((data_bits L >>> 24) &&& 0xFF), toByte ((data_bits L >>> 16) &&& 0xFF),
       toByte ((data_bits L >>> 8) &&& 0xFF), toByte (data_bits L &&& 0xFF)]) := by
  have h9 : 9 ≤ padding_size L := by rw [padding_size_eq]; split_ifs <;> omega
  obtain ⟨q, hq⟩ : ∃ q, padding_size L = q + 9 := ⟨padding_size L - 9, by omega⟩
  simp only [get_padding, hq, replicate_split, List.set_cons_zero, Nat.add_sub_cancel]
  exact set_tail8 _ q (by simp) _ _ _ _ _ _ _ _ _ _ _ _ _ _ _ _ _

/-! ## The padding against the reference -/

theorem zero_count_mod (L : Nat) : fips.zero_count L = fips.zero_count (L % 64) := by
  unfold fips.zero_count
  have e : (fun k : Nat => decide ((L + 1 + k) % 64 = 56)) =
      fun k => decide ((L % 64 + 1 + k) % 64 = 56) := by
    funext k
    congr 1
    apply propext
    constructor <;> intro h <;> omega
  rw [e]

set_option maxRecDepth 100000 in
theorem zero_count_small :
    ∀ r, r < 64 → fips.zero_count r = (if r ≤ 55 then 55 - r else 119 - r) := by
  decide!

theorem zero_count_eq (L : Nat) : fips.zero_count L = padding_size L - 9 := by
  rw [zero_count_mod, zero_count_small _ (Nat.mod_lt _ (by decide)), padding_size_eq]
  split_ifs <;> omega

theorem zero_count_spec (L : Nat) :
    (L + 1 + fips.zero_count L) % 64 = 56 ∧
      ∀ k, (L + 1 + k) % 64 = 56 → fips.zero_count L ≤ k := by
  rw [zero_count_mod, zero_count_small _ (Nat.mod_lt _ (by decide))]
  constructor
  · split_ifs <;> omega
  · intro k hk
    split_ifs <;> omega

theorem data_bits_eq (L : Nat) (hL : L < 2 ^ 61) : data_bits L = 8 * L := by
  simp only [data_bits, u64]
  omega

theorem be64_eq (n : Nat) :
    fips.be64 n = [toByte (n / 2 ^ 56), toByte (n / 2 ^ 48), toByte (n / 2 ^ 40),
      toByte (n / 2 ^ 32), toByte (n / 2 ^ 24), toByte (n / 2 ^ 16), toByte (n / 2 ^ 8),
      toByte n] := by
  simp [fips.be64, List.range, List.range.loop]

/-- Below 2^37 bytes the vector of `get_padding` is the padding of the standard. -/
theorem get_padding_fips (L : Nat) (hL : L < 2 ^ 37) :
    get_padding L =
      [toByte 0x80] ++ List.replicate (fips.zero_count L) 0 ++ fips.be64 (8 * L) := by
  rw [get_padding_eq, zero_count_eq, be64_eq, data_bits_eq L (by omega)]
  simp only [toByte_and, Nat.shiftRight_eq_div_pow]
  have h56 : 8 * L / 2 ^ 56 = 0 := Nat.div_eq_of_lt (by omega)
  have h48 : 8 * L / 2 ^ 48 = 0 := Nat.div_eq_of_lt (by omega)
  have h40 : 8 * L / 2 ^ 40 = 0 := Nat.div_eq_of_lt (by omega)
  rw [h56, h48, h40]
  simp

theorem pad_eq (data : List Byte) (hL : data.length < 2 ^ 37) :
    fips.pad data = data ++ get_padding data.length := by
  rw [get_padding_fips _ hL]
  simp [fips.pad]

/-! ## Reads through `memcpy` -/

theorem memcpy_getD (dst src : List Byte) (d s n j : Nat) (hd : d + n ≤ dst.length) :
    (memcpy dst d src s n).getD j 0 =
      if j < d then dst.getD j 0
      else if j < d + n then src.getD (s + (j - d)) 0 else dst.getD j 0 := by
  unfold memcpy
  have h1 : (dst.take d).length = d := by rw [List.length_take]; omega
  have h2 : (dst.take d ++ (List.range n).map (fun j => src.getD (s + j) 0)).length = d + n := by
    simp [h1]
  by_cases c1 : j < d
  · rw [if_pos c1, List.getD_append _ _ _ _ (by omega), List.getD_append _ _ _ _ (by omega)]
    simp [List.getD_eq_getElem?_getD, List.getElem?_take, c1]
  · rw [if_neg c1]
    by_cases c2 : j < d + n
    · rw [if_pos c2, List.getD_append _ _ _ _ (by omega),
        List.getD_append_right _ _ _ _ (by omega), h1]
      have c3 : j - d < n := by omega
      simp [List.getD_eq_getElem?_getD, List.getElem?_map, List.getElem?_range, c3]
    · rw [if_neg c2, List.getD_append_right _ _ _ _ (by omega), h2]
      simp only [List.getD_eq_getElem?_getD, List.getElem?_drop]
      rw [show d + n + (j - (d + n)) = j by omega]

/-! ## The blocks of the block loop -/

theorem Block_ofBytes_congr (mem mem' : List Byte) (off off' : Nat)
    (h : ∀ j, j < 64 → mem.getD (off + j) 0 = mem'.getD (off' + j) 0) :
    Block.ofBytes mem off = Block.ofBytes mem' off' := by
  unfold Block.ofBytes
  refine congrArg Block.mk ?_
  apply List.map_congr_left
  intro i hi
  have hi16 : i < 16 := List.mem_range.mp hi
  simp only [rd, kWordBytes, Nat.add_assoc]
  rw [h (i * 4 + 0) (by omega), h (i * 4 + 1) (by omega), h (i * 4 + 2) (by omega),
    h (i * 4 + 3) (by omega)]

theorem getD_chunk (P : List Byte) (i m : Nat) (hm : m < 64) :
    ((P.drop (64 * i)).take 64).getD m 0 = P.getD (64 * i + m) 0 := by
  simp only [List.getD_eq_getElem?_getD, List.getElem?_take, List.getElem?_drop, hm, if_true]

theorem words_chunk (P : List Byte) (i : Nat) :
    fips.words ((P.drop (64 * i)).take 64) = (Block.ofBytes P (64 * i)).w := by
  rw [Block_ofBytes_w]
  unfold fips.words
  apply List.map_congr_left
  intro j hj
  have hj16 : j < 16 := List.mem_range.mp hj
  simp only [rd]
  rw [getD_chunk P i _ (by omega), getD_chunk P i _ (by omega), getD_chunk P i _ (by omega),
    getD_chunk P i _ (by omega)]
  simp only [Nat.add_assoc]

theorem block_count_eq (L : Nat) (hL : L < 2 ^ 38) : block_count L = L / 64 := by
  simp only [block_count, u32, u64, kBlockBytes]
  omega

theorem rem_size_eq (L : Nat) : rem_size L = L % 64 := by
  simp only [rem_size, kBlockBytes]
  exact u64_mod_64 L

theorem last_blocks_eq (data : List Byte) (L : Nat) :
    last_blocks data L =
      if L % 64 ≤ 55 then [Block.ofBytes (rem_data data L) 0]
      else [Block.ofBytes (rem_data data L) 0,
        Block.ofBytes (get_padding L) ((get_padding L).length - kBlockBytes)] := by
  have hp := padding_size_eq L
  have hl := length_get_padding L
  unfold last_blocks
  by_cases c : L % 64 ≤ 55
  · have h1 : (get_padding L).length ≤ kBlockBytes := by
      rw [hl, hp, if_pos c, kBlockBytes]; omega
    simp [h1, c]
  · have h1 : ¬ (get_padding L).length ≤ kBlockBytes := by
      rw [hl, hp, if_neg c, kBlockBytes]; omega
    simp [h1, c]

theorem rem_data_getD (data : List Byte) (L j : Nat) (hL : L < 2 ^ 64) (hj : j < 64) :
    (rem_data data L).getD j 0 =
      if j < L % 64 then data.getD (L - L % 64 + j) 0
      else (get_padding L).getD (j - L % 64) 0 := by
  have hr : L % 64 < 64 := Nat.mod_lt _ (by decide)
  have hu : u64 L = L := Nat.mod_eq_of_lt hL
  simp only [rem_data, rem_size_eq, kBlockBytes, hu]
  by_cases c0 : L % 64 = 0
  · rw [c0]
    simp only [ne_eq, not_true_eq_false, if_false, Nat.sub_zero]
    rw [memcpy_getD _ _ _ _ _ _ (by simp)]
    simp [hj]
  · simp only [ne_eq, c0, not_false_eq_true, if_true]
    rw [memcpy_getD _ _ _ _ _ _ (by simp [memcpy])]
    by_cases c1 : j < L % 64
    · rw [if_pos c1, if_pos c1, memcpy_getD _ _ _ _ _ _ (by simp; omega)]
      simp [c1]
    · rw [if_neg c1, if_neg c1, if_pos (by omega)]
      simp

theorem last_blocks_length (data : List Byte) (L : Nat) :
    (last_blocks data L).length = if L % 64 ≤ 55 then 1 else 2 := by
  rw [last_blocks_eq]
  split_ifs <;> rfl

theorem tail0_eq (data : List Byte) (hL : data.length < 2 ^ 64) :
    Block.ofBytes (rem_data data data.length) 0 =
      Block.ofBytes (data ++ get_padding data.length) (64 * (data.length / 64)) := by
  apply Block_ofBytes_congr
  intro j hj
  rw [Nat.zero_add, rem_data_getD _ _ _ hL hj]
  by_cases cj : j < data.length % 64
  · have e : data.length - data.length % 64 + j = 64 * (data.length / 64) + j := by omega
    rw [if_pos cj, List.getD_append _ _ _ _ (by omega), e]
  · have e : 64 * (data.length / 64) + j - data.length = j - data.length % 64 := by omega
    rw [if_neg cj, List.getD_append_right _ _ _ _ (by omega), e]

theorem tail1_eq (data : List Byte) (h56 : ¬ data.length % 64 ≤ 55) :
    Block.ofBytes (get_padding data.length) ((get_padding data.length).length - kBlockBytes) =
      Block.ofBytes (data ++ get_padding data.length) (64 * (data.length / 64 + 1)) := by
  have hp := padding_size_eq data.length
  have hl := length_get_padding data.length
  rw [if_neg h56] at hp
  apply Block_ofBytes_congr
  intro j hj
  have e : 64 * (data.length / 64 + 1) + j - data.length =
      padding_size data.length - 64 + j := by omega
  rw [List.getD_append_right _ _ _ _ (by omega), hl, kBlockBytes, e]

theorem block_at_eq (data : List Byte) (i : Nat) (hL : data.length < 2 ^ 38)
    (hi : i < block_count data.length + (last_blocks data data.length).length) :
    block_at data data.length i =
      Block.ofBytes (data ++ get_padding data.length) (64 * i) := by
  have hbc := block_count_eq _ hL
  have hn := last_blocks_length data data.length
  unfold block_at
  rw [hbc] at hi ⊢
  by_cases c : i < data.length / 64
  · rw [if_pos c]
    apply Block_ofBytes_congr
    intro j hj
    rw [List.getD_append _ _ _ _ (by omega), kBlockBytes, Nat.mul_comm i 64]
  · rw [if_neg c]
    by_cases c55 : data.length % 64 ≤ 55
    · rw [if_pos c55] at hn
      have hi0 : i = data.length / 64 := by omega
      rw [last_blocks_eq, if_pos c55, hi0, Nat.sub_self, List.getD_cons_zero]
      exact tail0_eq data (by omega)
    · rw [if_neg c55] at hn
      rw [last_blocks_eq, if_neg c55]
      by_cases ci : i = data.length / 64
      · rw [ci, Nat.sub_self, List.getD_cons_zero]
        exact tail0_eq data (by omega)
      · have hi1 : i = data.length / 64 + 1 := by omega
        rw [hi1, Nat.add_sub_cancel_left, List.getD_cons_succ, List.getD_cons_zero]
        exact tail1_eq data c55

/-! ## The digest against the reference -/

theorem foldl_congr_inv {α β : Type} (Inv : α → Prop) (f g : α → β → α) (l : List β)
    (init : α) (h0 : Inv init)
    (hstep : ∀ a x, x ∈ l → Inv a → f a x = g a x ∧ Inv (f a x)) :
    l.foldl f init = l.foldl g init ∧ Inv (l.foldl f init) := by
  induction l generalizing init with
  | nil => exact ⟨rfl, h0⟩
  | cons x l ih =>
    obtain ⟨e, hi⟩ := hstep init x (List.mem_cons_self _ _) h0
    rw [List.foldl_cons, List.foldl_cons, ← e]
    exact ih (f init x) hi (fun a y hy ha => hstep a y (List.mem_cons_of_mem _ hy) ha)

theorem init_state_eq : init_state = kInitialHash := by decide

theorem final_state_length (data : List Byte) (data_size : Nat) :
    (final_state data data_size).length = 8 := by
  unfold final_state
  exact (foldl_congr_inv (fun h : List Nat => h.length = 8) _ _ _ init_state (by decide)
    (fun a x _ ha => ⟨rfl, (process_block_length a _).trans ha⟩)).2

theorem final_state_eq (data : List Byte) (hL : data.length < 2 ^ 37) :
    final_state data data.length = fips.hash data := by
  have hbc := block_count_eq data.length (by omega)
  have hp := padding_size_eq data.length
  have hl := length_get_padding data.length
  have hn := last_blocks_length data data.length
  have hcount : (data ++ get_padding data.length).length / 64 =
      block_count data.length + (last_blocks data data.length).length := by
    rw [List.length_append, hl, hp, hn, hbc]
    split_ifs <;> omega
  unfold fips.hash fips.blocks final_state
  rw [pad_eq data hL, List.foldl_map, hcount, init_state_eq]
  refine (foldl_congr_inv (fun h : List Nat => h.length = 8) _ _ _ kInitialHash (by decide)
    (fun a i hi ha => ?_)).1
  have hi2 := List.mem_range.mp hi
  refine ⟨?_, (process_block_length a _).trans ha⟩
  rw [block_at_eq data i (by omega) hi2, words_chunk,
    process_block_eq a _ ha (Block_ofBytes_length _ _)]

/-! ## The final state -/

theorem rem_data_zero (data : List Byte) : rem_data data 0 = rem_data [] 0 := by
  have h0 : rem_size 0 = 0 := by decide
  simp only [rem_data, h0, ne_eq, not_true_eq_false, if_false]

theorem final_state_zero (data : List Byte) : final_state data 0 = final_state [] 0 := by
  have hb : block_count 0 = 0 := by decide
  have hl : last_blocks data 0 = last_blocks [] 0 := by
    simp only [last_blocks, rem_data_zero data]
  have hf : ∀ i, block_at data 0 i = block_at [] 0 i := by
    intro i
    simp only [block_at, hb, Nat.not_lt_zero, if_false, hl]
  simp only [final_state, hl, hf]

theorem foldl_int_none (data : List Byte) (data_size : Nat) (l : List Nat) :
    l.foldl (fun h_ i => h_.bind fun h =>
      (block_at_int data data_size i).map (process_block h)) none = none := by
  induction l with
  | nil => rfl
  | cons x l ih => rw [List.foldl_cons, Option.none_bind, ih]

theorem foldl_int_some (data : List Byte) (data_size : Nat) (l : List Nat) (h0 : List Nat)
    (hl : ∀ i, i ∈ l → block_at_int data data_size i = some (block_at data data_size i)) :
    l.foldl (fun h_ i => h_.bind fun h =>
      (block_at_int data data_size i).map (process_block h)) (some h0) =
    some (l.foldl (fun h_ i => process_block h_ (block_at data data_size i)) h0) := by
  induction l generalizing h0 with
  | nil => rfl
  | cons x l ih =>
    rw [List.foldl_cons, List.foldl_cons, Option.some_bind, hl x (List.mem_cons_self _ _),
      Option.map_some']
    exact ih _ (fun i hi => hl i (List.mem_cons_of_mem _ hi))

theorem block_at_int_eq (data : List Byte) (data_size i : Nat)
    (h : block_count data_size ≤ 2 ^ 25) :
    block_at_int data data_size i = some (block_at data data_size i) := by
  unfold block_at_int block_at
  by_cases c : i < block_count data_size
  · have c2 : i * kBlockBytes < 2 ^ 31 := by rw [kBlockBytes]; omega
    rw [if_pos c, if_pos c, int_mul, if_pos c2]
    rfl
  · rw [if_neg c, if_neg c]

/-- With at most 2^25 full blocks no offset overflows and the loop ends in `final_state`. -/
theorem final_state_int_eq (data : List Byte) (data_size : Nat)
    (h : block_count data_size ≤ 2 ^ 25) :
    final_state_int data data_size = some (final_state data data_size) :=
  foldl_int_some data data_size _ _ (fun i _ => block_at_int_eq data data_size i h)

/-- A pass `k` over a full block whose offset does not fit an `int` leaves the loop without
a result. -/
theorem final_state_int_none_at (data : List Byte) (data_size k : Nat)
    (hk1 : k < block_count data_size) (hk2 : ¬ k * kBlockBytes < 2 ^ 31) :
    final_state_int data data_size = none := by
  have hk : block_at_int data data_size k = none := by
    rw [block_at_int, if_pos hk1, int_mul, if_neg hk2]
    rfl
  obtain ⟨m, hm⟩ : ∃ m, block_count data_size + (last_blocks data data_size).length =
      (k + 1) + m := ⟨block_count data_size + (last_blocks data data_size).length - (k + 1),
        by omega⟩
  have e : ∀ x : Option (List Nat), (x.bind fun _ => (none : Option (List Nat))) = none := by
    intro x; cases x <;> rfl
  unfold final_state_int
  rw [hm, List.range_add, List.foldl_append, List.range_succ, List.foldl_append]
  simp only [List.foldl_cons, List.foldl_nil, hk, Option.map_none', e]
  exact foldl_int_none data data_size _

/-- With more than 2^25 full blocks pass `2^25` overflows. -/
theorem final_state_int_none (data : List Byte) (data_size : Nat)
    (h : 2 ^ 25 < block_count data_size) : final_state_int data data_size = none :=
  final_state_int_none_at data data_size (2 ^ 25) h (by rw [kBlockBytes]; norm_num)

theorem block_count_small (data_size : Nat) (h : data_size < 2 ^ 31 + 64) :
    block_count data_size ≤ 2 ^ 25 := by
  simp only [block_count, u32, u64, kBlockBytes]
  omega

theorem sha256_int_eq (data hash : List Byte) (data_size : Nat)
    (h : data_size < 2 ^ 31 + 64) :
    sha256_int data data_size hash =
      some (Error.kErrorOk, write_hash (final_state data data_size) hash) := by
  rw [sha256_int, final_state_int_eq data data_size (block_count_small data_size h)]
  rfl

/-! ## The claims -/

/-- C1. For a buffer `data` of fewer than 2^31 bytes, `sha256(data, len(data), hash)` returns
`kErrorOk` and leaves in `hash` the SHA-256 digest of `data` as FIPS 180-4 defines it
(`fips.sha256`: padding with `0x80`, the least number of zero bytes and the 64-bit
big-endian bit length; 64-byte blocks of sixteen big-endian words; the compression
function folded from the initial hash words; the eight words written big-endian). -/
theorem sha256_digest_is_fips (data hash : List Byte) (hL : data.length < 2 ^ 31)
    (hh : hash.length = 32) :
    sha256 data data.length hash = (Error.kErrorOk, fips.sha256 data) := by
  have h37 : data.length < 2 ^ 37 := by omega
  unfold sha256 fips.sha256
  rw [write_hash_eq _ _ hh, state_bytes_of_length _ (final_state_length _ _),
    final_state_eq data h37]

/-- C1, at the three bytes `abc` and an output array of zeros. -/
theorem sha256_digest_is_fips_witness :
    abc.length < 2 ^ 31 ∧ (List.replicate 32 (0 : Byte)).length = 32 ∧
      sha256 abc abc.length (List.replicate 32 0) = (Error.kErrorOk, fips.sha256 abc) :=
  ⟨by decide, by decide, sha256_digest_is_fips abc (List.replicate 32 0) (by decide) (by decide)⟩

set_option maxRecDepth 100000 in
/-- C2. With `data_size = 0`, whatever the buffer pointer and the previous content of the
32-byte output array, `sha256` stores
`e3b0c44298fc1c149afbf4c8996fb92427ae41e4649b934ca495991b7852b855`. -/
theorem sha256_empty_input (data hash : List Byte) (hh : hash.length = 32) :
    sha256 data 0 hash = (Error.kErrorOk,
      [0xe3, 0xb0, 0xc4, 0x42, 0x98, 0xfc, 0x1c, 0x14, 0x9a, 0xfb, 0xf4, 0xc8, 0x99, 0x6f,
       0xb9, 0x24, 0x27, 0xae, 0x41, 0xe4, 0x64, 0x9b, 0x93, 0x4c, 0xa4, 0x95, 0x99, 0x1b,
       0x78, 0x52, 0xb8, 0x55]) := by
  unfold sha256
  rw [write_hash_eq _ _ hh, final_state_zero]
  decide!

/-- C2, at the empty buffer and an output array of zeros. -/
theorem sha256_empty_input_witness :
    (List.replicate 32 (0 : Byte)).length = 32 ∧
      sha256 [] 0 (List.replicate 32 0) = (Error.kErrorOk,
        [0xe3, 0xb0, 0xc4, 0x42, 0x98, 0xfc, 0x1c, 0x14, 0x9a, 0xfb, 0xf4, 0xc8, 0x99, 0x6f,
         0xb9, 0x24, 0x27, 0xae, 0x41, 0xe4, 0x64, 0x9b, 0x93, 0x4c, 0xa4, 0x95, 0x99, 0x1b,
         0x78, 0x52, 0xb8, 0x55]) :=
  ⟨by decide, sha256_empty_input [] (List.replicate 32 0) (by decide)⟩

set_option maxRecDepth 100000 in
/-- C3. On the three bytes `0x61 0x62 0x63` with `data_size = 3`, whatever the previous
content of the 32-byte output array, `sha256` stores
`ba7816bf8f01cfea414140de5dae2223b00361a396177a9cb410ff61f20015ad`. -/
theorem sha256_abc_input (hash : List Byte) (hh : hash.length = 32) :
    sha256 abc 3 hash = (Error.kErrorOk,
      [0xba, 0x78, 0x16, 0xbf, 0x8f, 0x01, 0xcf, 0xea, 0x41, 0x41, 0x40, 0xde, 0x5d, 0xae,
       0x22, 0x23, 0xb0, 0x03, 0x61, 0xa3, 0x96, 0x17, 0x7a, 0x9c, 0xb4, 0x10, 0xff, 0x61,
       0xf2, 0x00, 0x15, 0xad]) := by
  unfold sha256
  rw [write_hash_eq _ _ hh]
  decide!

/-- C3, at an output array of zeros. -/
theorem sha256_abc_input_witness :
    (List.replicate 32 (0 : Byte)).length = 32 ∧
      sha256 abc 3 (List.replicate 32 0) = (Error.kErrorOk,
        [0xba, 0x78, 0x16, 0xbf, 0x8f, 0x01, 0xcf, 0xea, 0x41, 0x41, 0x40, 0xde, 0x5d, 0xae,
         0x22, 0x23, 0xb0, 0x03, 0x61, 0xa3, 0x96, 0x17, 0x7a, 0x9c, 0xb4, 0x10, 0xff, 0x61,
         0xf2, 0x00, 0x15, 0xad]) :=
  ⟨by decide, sha256_abc_input (List.replicate 32 0) (by decide)⟩

/-- C4. For every `data_size` `L`, the length `p` of `get_padding(L)` is `64 - L % 64` when
that is at least 9 and `128 - L % 64` otherwise; `(L + p) % 64 = 0`, `9 ≤ p ≤ 72`, and `p`
is the least number that is at least 9 and makes `L + p` a multiple of 64. -/
theorem get_padding_length (L : Nat) :
    (get_padding L).length = (if 9 ≤ 64 - L % 64 then 64 - L % 64 else 128 - L % 64) ∧
    (L + (get_padding L).length) % 64 = 0 ∧
    9 ≤ (get_padding L).length ∧ (get_padding L).length ≤ 72 ∧
    ∀ q, 9 ≤ q → (L + q) % 64 = 0 → (get_padding L).length ≤ q := by
  rw [length_get_padding, padding_size_eq]
  refine ⟨?_, ?_, ?_, ?_, ?_⟩
  · split_ifs <;> omega
  · split_ifs <;> omega
  · split_ifs <;> omega
  · split_ifs <;> omega
  · intro q h1 h2
    split_ifs <;> omega

set_option maxRecDepth 100000 in
/-- C5, at `data_size = 2^37` (bit length `2^40`): the padding has 64 bytes, the byte at
index `size - 8` is `0x01` and the byte at index `size - 6` is `0x00`, while the big-endian
encoding of the bit length has `0x00` at offset 0 and `0x01` at offset 2. -/
theorem length_field_at_2_37 :
    (get_padding 137438953472).length = 64 ∧
    (get_padding 137438953472)[64 - 8]? = some 1 ∧
    (get_padding 137438953472)[64 - 6]? = some 0 ∧
    (137438953472 * 8 % 2 ^ 64) >>> (56 - 8 * 0) &&& 0xFF = 0 ∧
    (137438953472 * 8 % 2 ^ 64) >>> (56 - 8 * 2) &&& 0xFF = 1 := by
  decide!

/-- C6. For every `data_size` `L`, byte 0 of `get_padding(L)` is `0x80` and every byte at an
index `i` with `1 ≤ i < size - 8` is `0x00`. -/
theorem get_padding_marker_and_zeros (L : Nat) :
    (get_padding L)[0]? = some 0x80 ∧
    ∀ i, 1 ≤ i → i < (get_padding L).length - 8 → (get_padding L)[i]? = some 0 := by
  have hp := padding_size_eq L
  have hl := length_get_padding L
  have h9 : 9 ≤ padding_size L := by rw [hp]; split_ifs <;> omega
  rw [hl]
  rw [get_padding_eq]
  constructor
  · rw [List.getElem?_cons_zero]
    decide
  · intro i h1 h2
    obtain ⟨k, rfl⟩ : ∃ k, i = k + 1 := ⟨i - 1, by omega⟩
    have hk : k < (List.replicate (padding_size L - 9) (0 : Byte)).length := by
      rw [List.length_replicate]; omega
    rw [List.getElem?_cons_succ, List.getElem?_append_left hk, List.getElem?_replicate]
    rw [List.length_replicate] at hk
    rw [if_pos hk]

/-- C8, at `data_size = 2^31 + 64`: there are `2^25 + 1` full blocks, the offset
`i * kBlockBytes` of pass `i = 2^25` does not fit an `int`, and the call has no defined
result, so it does not return `kErrorOk`. Every call with `data_size < 2^31 + 64` returns
`kErrorOk`, and no call returns `kErrorFailed`. -/
theorem sha256_int_result (data hash : List Byte) :
    block_count (2 ^ 31 + 64) = 2 ^ 25 + 1 ∧
    int_mul (2 ^ 25) kBlockBytes = none ∧
    sha256_int data (2 ^ 31 + 64) hash = none ∧
    (∀ data_size, data_size < 2 ^ 31 + 64 →
      ∃ out, sha256_int data data_size hash = some (Error.kErrorOk, out)) ∧
    (∀ data_size out, sha256_int data data_size hash ≠ some (Error.kErrorFailed, out)) := by
  have hb : block_count (2 ^ 31 + 64) = 2 ^ 25 + 1 := by
    simp only [block_count, u32, u64, kBlockBytes]
    norm_num
  refine ⟨hb, ?_, ?_, ?_, ?_⟩
  · rw [int_mul, kBlockBytes, if_neg (by norm_num)]
  · rw [sha256_int, final_state_int_none data _ (by rw [hb]; norm_num)]
    rfl
  · intro data_size hd
    exact ⟨_, sha256_int_eq data hash data_size hd⟩
  · intro data_size out h
    unfold sha256_int at h
    cases hs : final_state_int data data_size with
    | none => rw [hs] at h; simp at h
    | some s =>
      rw [hs, Option.map_some', Option.some.injEq, Prod.mk.injEq] at h
      exact absurd h.1 (by decide)

/-- C9. For every sequence `b` of 64 bytes, the `Block` constructed from it has 16 words,
word `i` is `b[4i] * 2^24 + b[4i+1] * 2^16 + b[4i+2] * 2^8 + b[4i+3]`, and writing the 16
words back as big-endian bytes gives `b`. -/
theorem Block_ofBytes_big_endian (b : List Byte) (hb : b.length = 64) :
    (Block.ofBytes b 0).w.length = 16 ∧
    (∀ i, i < 16 → (Block.ofBytes b 0).w[i]? =
      some ((b.getD (4 * i) 0).val * 2 ^ 24 + (b.getD (4 * i + 1) 0).val * 2 ^ 16 +
        (b.getD (4 * i + 2) 0).val * 2 ^ 8 + (b.getD (4 * i + 3) 0).val)) ∧
    (Block.ofBytes b 0).w.flatMap fips.word_bytes = b := by
  refine ⟨Block_ofBytes_length b 0, ?_, Block_ofBytes_bytes b hb⟩
  intro i hi
  rw [Block_ofBytes_w]
  simp [List.getElem?_map, List.getElem?_range, hi, rd]

/-- C9, at the 64 bytes `0, 1, .., 63`. -/
theorem Block_ofBytes_big_endian_witness :
    ((List.range 64).map toByte).length = 64 ∧
    (Block.ofBytes ((List.range 64).map toByte) 0).w.flatMap fips.word_bytes =
      (List.range 64).map toByte :=
  ⟨by decide, (Block_ofBytes_big_endian ((List.range 64).map toByte) (by decide)).2.2⟩

/-- C10, at `data_size = 2^38`: `block_count` is 0 where the claim has `2^38 / 64 = 2^32`
full blocks. -/
theorem block_count_at_2_38 :
    block_count 274877906944 = 0 ∧ 274877906944 / 64 = 4294967296 := by
  decide

/-! ## Further lemmas -/

theorem rem_data_length (data : List Byte) (L : Nat) : (rem_data data L).length = 64 := by
  have hr : L % 64 < 64 := Nat.mod_lt _ (by decide)
  simp only [rem_data, rem_size_eq, kBlockBytes]
  by_cases c0 : L % 64 = 0
  · simp [c0, memcpy]
  · simp only [ne_eq, c0, not_false_eq_true, if_true]
    simp [memcpy]
    omega

/-! ## The tail blocks as byte strings -/

theorem list_ext_getD (l1 l2 : List Byte) (hl : l1.length = l2.length)
    (h : ∀ j, j < l1.length → l1.getD j 0 = l2.getD j 0) : l1 = l2 := by
  apply List.ext_getElem hl
  intro j h1 h2
  have := h j h1
  rw [List.getD_eq_getElem?_getD, List.getD_eq_getElem?_getD, List.getElem?_eq_getElem h1,
    List.getElem?_eq_getElem h2] at this
  exact this

theorem getD_drop_zero (l : List Byte) (k j : Nat) : (l.drop k).getD j 0 = l.getD (k + j) 0 := by
  simp only [List.getD_eq_getElem?_getD, List.getElem?_drop]

theorem getD_take_lt (l : List Byte) (k j : Nat) (hj : j < k) :
    (l.take k).getD j 0 = l.getD j 0 := by
  simp only [List.getD_eq_getElem?_getD, List.getElem?_take, hj, if_true]

theorem Block_mk_words (c : List Byte) : Block.mk (fips.words c) = Block.ofBytes c 0 := by
  have h := Block_ofBytes_w c 0
  simp only [Nat.zero_add] at h
  have e : Block.ofBytes c 0 = Block.mk (Block.ofBytes c 0).w := rfl
  rw [e, h]
  rfl

/-- The scratch array `rem_data`: the last `L % 64` message bytes, then the first
`64 - L % 64` padding bytes. -/
theorem rem_data_eq (data : List Byte) (hL : data.length < 2 ^ 64) :
    rem_data data data.length =
      data.drop (data.length - data.length % 64) ++
        (get_padding data.length).take (64 - data.length % 64) := by
  have hp := padding_size_eq data.length
  have hl := length_get_padding data.length
  have hm : data.length % 64 < 64 := Nat.mod_lt _ (by decide)
  have hle : data.length % 64 ≤ data.length := Nat.mod_le _ _
  have h64 : 64 - data.length % 64 ≤ padding_size data.length := by
    rw [hp]; split_ifs <;> omega
  have hd : (data.drop (data.length - data.length % 64)).length = data.length % 64 := by
    rw [List.length_drop]; omega
  have ht : ((get_padding data.length).take (64 - data.length % 64)).length =
      64 - data.length % 64 := by
    rw [List.length_take, hl]; omega
  apply list_ext_getD
  · rw [rem_data_length, List.length_append, hd, ht]
    omega
  · intro j hj
    rw [rem_data_length] at hj
    rw [rem_data_getD _ _ _ hL hj]
    by_cases c : j < data.length % 64
    · rw [if_pos c, List.getD_append _ _ _ _ (by omega), getD_drop_zero]
    · rw [if_neg c, List.getD_append_right _ _ _ _ (by omega), hd,
        getD_take_lt _ _ _ (by omega)]

theorem xor_mask32 (x : Nat) (hx : x < 2 ^ 32) : x ^^^ 0xFFFFFFFF = 2 ^ 32 - 1 - x := by
  apply Nat.eq_of_testBit_eq
  intro i
  rw [show 2 ^ 32 - 1 - x = 2 ^ 32 - (x + 1) by omega, Nat.testBit_two_pow_sub_succ hx,
    Nat.testBit_xor, show (0xFFFFFFFF : Nat) = 2 ^ 32 - 1 by norm_num,
    Nat.testBit_two_pow_sub_one]
  by_cases hi : i < 32
  · simp [hi]
  · have : x.testBit i = false :=
      Nat.testBit_lt_two_pow (Nat.lt_of_lt_of_le hx (Nat.pow_le_pow_right (by decide) (by omega)))
    simp [hi, this]

theorem process_block_rounds (h_ : List Nat) (block : Block) (hh : h_.length = 8) :
    process_block h_ block =
      List.zipWith (fun x y => (x + y) % 2 ^ 32)
        ((List.range 64).foldl (fips.step (schedule block)) h_) h_ := by
  obtain ⟨a, b, c, d, e, f, g, h, rfl⟩ := list_length_8 h_ hh
  have hr := rounds_toList (schedule block) (List.range 64)
    { a := a, b := b, c := c, d := d, e := e, f := f, g := g, h := h }
  simp only [process_block, List.getD_cons_zero, List.getD_cons_succ]
  simp only [Regs.toList] at hr
  rw [← hr]
  simp [u32]

/-! ## The schedule word by word -/

theorem extend_length (n : Nat) (W : List Nat) : (fips.extend n W).length = W.length + n := by
  induction n generalizing W with
  | zero => rfl
  | succ n ih =>
    rw [fips.extend, ih]
    simp only [List.length_append, List.length_singleton]
    omega

theorem extend_getD_lt (n : Nat) (W : List Nat) (i : Nat) (hi : i < W.length) :
    (fips.extend n W).getD i 0 = W.getD i 0 := by
  induction n generalizing W with
  | zero => rfl
  | succ n ih =>
    rw [fips.extend, ih _ (by simp only [List.length_append, List.length_singleton]; omega)]
    exact List.getD_append _ _ _ _ hi

theorem extend_rec (n : Nat) (W : List Nat) (t : Nat) (h16 : 16 ≤ W.length)
    (h1 : W.length ≤ t) (h2 : t < W.length + n) :
    (fips.extend n W).getD t 0 =
      (s_sigma_1 ((fips.extend n W).getD (t - 2) 0) + (fips.extend n W).getD (t - 7) 0 +
        s_sigma_0 ((fips.extend n W).getD (t - 15) 0) + (fips.extend n W).getD (t - 16) 0) %
        2 ^ 32 := by
  induction n generalizing W with
  | zero => omega
  | succ n ih =>
    rw [fips.extend]
    by_cases c : t = W.length
    · subst c
      generalize hv : (s_sigma_1 (W.getD (W.length - 2) 0) + W.getD (W.length - 7) 0 +
        s_sigma_0 (W.getD (W.length - 15) 0) + W.getD (W.length - 16) 0) % 2 ^ 32 = v
      have hl : (W ++ [v]).length = W.length + 1 := by
        simp only [List.length_append, List.length_singleton]
      have e0 : (fips.extend n (W ++ [v])).getD W.length 0 = v := by
        rw [extend_getD_lt _ _ _ (by omega), List.getD_append_right _ _ _ _ (Nat.le_refl _),
          Nat.sub_self]
        rfl
      have ek : ∀ k, 0 < k → k ≤ 16 →
          (fips.extend n (W ++ [v])).getD (W.length - k) 0 = W.getD (W.length - k) 0 := by
        intro k hk1 hk2
        rw [extend_getD_lt _ _ _ (by omega), List.getD_append _ _ _ _ (by omega)]
      rw [e0, ek 2 (by omega) (by omega), ek 7 (by omega) (by omega),
        ek 15 (by omega) (by omega), ek 16 (by omega) (by omega), hv]
    · exact ih _ (by simp only [List.length_append, List.length_singleton]; omega)
        (by simp only [List.length_append, List.length_singleton]; omega)
        (by simp only [List.length_append, List.length_singleton]; omega)

theorem getElem?_eq_some_getD (l : List Nat) (t : Nat) (h : t < l.length) :
    l[t]? = some (l.getD t 0) := by
  rw [List.getD_eq_getElem?_getD, List.getElem?_eq_getElem h, Option.getD_some]

/-- After `t` passes of the first inner loop the entries below `t` have their final value. -/
theorem schedule_partial (block : Block) (hb : block.w.length = 16) (t j : Nat)
    (ht : t ≤ 64) (hj : j < t) :
    ((List.range t).foldl (schedule_step block) (List.replicate 64 0)).getD j 0 =
      (schedule block).getD j 0 := by
  rw [schedule_eq block hb]
  by_cases c : t ≤ 16
  · rw [schedule_head block hb t c, List.getD_append _ _ _ _ (by rw [List.length_take]; omega)]
    rw [fips.message_schedule, extend_getD_lt _ _ _ (by omega)]
    simp only [List.getD_eq_getElem?_getD, List.getElem?_take, hj, if_true]
  · obtain ⟨E, hE, hf, hx⟩ := schedule_tail block hb (t - 16) (by omega)
    rw [show 16 + (t - 16) = t by omega] at hE hf
    rw [hf, List.getD_append _ _ _ _ (by omega), ← hx, extend_getD_lt _ _ _ (by omega)]

theorem data_bits_mod (L : Nat) : data_bits L = L * 8 % 2 ^ 64 := by
  simp only [data_bits, u64]
  omega

theorem toByte_eq_iff (a b : Nat) : toByte a = toByte b ↔ a % 256 = b % 256 := by
  constructor
  · intro h
    have := congrArg Fin.val h
    simpa only [toByte_val] using this
  · intro h
    apply Fin.ext
    simpa only [toByte_val] using h

/-- The last 8 bytes of the vector of `get_padding`. -/
theorem get_padding_last8 (L : Nat) :
    (get_padding L).drop ((get_padding L).length - 8) =
      [toByte (data_bits L / 2 ^ 40), toByte (data_bits L / 2 ^ 56),
       toByte (data_bits L / 2 ^ 48), toByte (data_bits L / 2 ^ 32),
       toByte (data_bits L / 2 ^ 24), toByte (data_bits L / 2 ^ 16),
       toByte (data_bits L / 2 ^ 8), toByte (data_bits L)] := by
  have hp := padding_size_eq L
  have h9 : 9 ≤ padding_size L := by rw [hp]; split_ifs <;> omega
  rw [length_get_padding, get_padding_eq]
  simp only [toByte_and, Nat.shiftRight_eq_div_pow]
  rw [show padding_size L - 8 = (padding_size L - 9) + 1 by omega, List.drop_succ_cons]
  rw [List.drop_append_of_le_length (by simp)]
  simp

theorem is_prime_iff (n : Nat) : is_prime n = true ↔ Nat.Prime n := by
  rw [Nat.prime_def_lt']
  simp only [is_prime, Bool.and_eq_true, decide_eq_true_eq, List.all_eq_true, List.mem_range]
  constructor
  · rintro ⟨h2, h⟩
    refine ⟨h2, fun m hm1 hm2 hd => ?_⟩
    rcases h m hm2 with h' | h'
    · omega
    · exact h' (Nat.mod_eq_zero_of_dvd hd)
  · rintro ⟨h2, h⟩
    refine ⟨h2, fun m hm => ?_⟩
    by_cases c : m < 2
    · exact Or.inl c
    · exact Or.inr fun h0 => h m (by omega) hm (Nat.dvd_of_mod_eq_zero h0)

theorem mem_primes (n : Nat) : n ∈ primes ↔ n < 312 ∧ Nat.Prime n := by
  rw [primes, List.mem_filter, List.mem_range, is_prime_iff]

/-! ## Rotation and shift -/

theorem rotr_lt (n x : Nat) (hx : x < 2 ^ 32) : rotr n x < 2 ^ 32 := by
  unfold rotr
  apply Nat.or_lt_two_pow
  · rw [Nat.shiftRight_eq_div_pow]
    exact Nat.lt_of_le_of_lt (Nat.div_le_self _ _) hx
  · exact u32_lt _

theorem rotr_testBit (n x j : Nat) (hn1 : 1 ≤ n) (hn2 : n ≤ 31) (hx : x < 2 ^ 32)
    (hj : j < 32) : (rotr n x).testBit j = x.testBit ((j + n) % 32) := by
  simp only [rotr, u32, kWordBits, Nat.testBit_or, Nat.testBit_shiftRight,
    Nat.testBit_mod_two_pow, Nat.testBit_shiftLeft, hj, decide_True, Bool.true_and]
  by_cases c : j + n < 32
  · have h1 : ¬ (j ≥ 32 - n) := by omega
    rw [Nat.mod_eq_of_lt c, Nat.add_comm n j]
    simp [h1]
  · have h1 : j ≥ 32 - n := by omega
    have h2 : x.testBit (n + j) = false :=
      Nat.testBit_lt_two_pow
        (Nat.lt_of_lt_of_le hx (Nat.pow_le_pow_right (by decide) (by omega)))
    have h3 : (j + n) % 32 = j - (32 - n) := by omega
    rw [h2, h3]
    simp [h1]

theorem rotr_inverse (n x : Nat) (hn1 : 1 ≤ n) (hn2 : n ≤ 31) (hx : x < 2 ^ 32) :
    rotr (32 - n) (rotr n x) = x := by
  apply Nat.eq_of_testBit_eq
  intro j
  by_cases hj : j < 32
  · rw [rotr_testBit (32 - n) _ j (by omega) (by omega) (rotr_lt n x hx) hj,
      rotr_testBit n x _ hn1 hn2 hx (Nat.mod_lt _ (by decide))]
    congr 1
    omega
  · have hp : (2 : Nat) ^ 32 ≤ 2 ^ j := Nat.pow_le_pow_right (by decide) (by omega)
    rw [Nat.testBit_lt_two_pow (Nat.lt_of_lt_of_le (rotr_lt _ _ (rotr_lt n x hx)) hp),
      Nat.testBit_lt_two_pow (Nat.lt_of_lt_of_le hx hp)]

/-! ## The claims, continued -/

/-- C11. For a message `data` of fewer than 2^31 bytes with `L = len(data)`: `block_count` is
`L / 64`, and the blocks that the passes `0, 1, ..` of the block loop work on (the full blocks
read from the buffer at offsets `64 i`, then the tail blocks) are, in order, the 64-byte
chunks of `data ++ get_padding(L)` decoded as 16 big-endian words; the first tail block is
decoded from the last `L % 64` message bytes followed by the first `64 - L % 64` padding
bytes, and the second tail block, when there is one, from the remaining 64 padding bytes. -/
theorem sha256_blocks_are_chunks (data : List Byte) (hL : data.length < 2 ^ 31) :
    block_count data.length = data.length / 64 ∧
    (List.range (block_count data.length + (last_blocks data data.length).length)).map
        (block_at data data.length) =
      (fips.blocks (data ++ get_padding data.length)).map (fun c => Block.mk (fips.words c)) ∧
    (∀ i, i < block_count data.length →
      block_at data data.length i = Block.ofBytes data (i * 64)) ∧
    (∀ j, block_at data data.length (block_count data.length + j) =
      (last_blocks data data.length).getD j Block.empty) ∧
    (last_blocks data data.length).getD 0 Block.empty =
      Block.mk (fips.words (data.drop (data.length - data.length % 64) ++
        (get_padding data.length).take (64 - data.length % 64))) ∧
    (data.drop (data.length - data.length % 64)).length = data.length % 64 ∧
    ((get_padding data.length).take (64 - data.length % 64)).length =
      64 - data.length % 64 ∧
    (2 ≤ (last_blocks data data.length).length →
      (last_blocks data data.length).getD 1 Block.empty =
        Block.mk (fips.words ((get_padding data.length).drop (64 - data.length % 64))) ∧
      ((get_padding data.length).drop (64 - data.length % 64)).length = 64) := by
  have hbc := block_count_eq data.length (by omega)
  have hp := padding_size_eq data.length
  have hl := length_get_padding data.length
  have hn := last_blocks_length data data.length
  have hm : data.length % 64 < 64 := Nat.mod_lt _ (by decide)
  have hle : data.length % 64 ≤ data.length := Nat.mod_le _ _
  have hcount : (data ++ get_padding data.length).length / 64 =
      block_count data.length + (last_blocks data data.length).length := by
    rw [List.length_append, hl, hp, hn, hbc]
    split_ifs <;> omega
  refine ⟨hbc, ?_, ?_, ?_, ?_, ?_, ?_, ?_⟩
  · rw [fips.blocks, List.map_map, hcount]
    apply List.map_congr_left
    intro i hi
    rw [block_at_eq data i (by omega) (List.mem_range.mp hi), Function.comp_apply,
      Block_mk_words]
    apply Block_ofBytes_congr
    intro j hj
    rw [Nat.zero_add, getD_chunk _ _ _ hj]
  · intro i hi
    simp only [block_at, hi, if_true, kBlockBytes]
  · intro j
    simp only [block_at, Nat.not_lt.mpr (Nat.le_add_right _ _), if_false,
      Nat.add_sub_cancel_left]
  · rw [Block_mk_words, ← rem_data_eq data (by omega), last_blocks_eq]
    split_ifs <;> rfl
  · rw [List.length_drop]; omega
  · rw [List.length_take, hl, hp]
    split_ifs <;> omega
  · intro h2
    rw [hn] at h2
    have c : ¬ data.length % 64 ≤ 55 := by
      intro c
      rw [if_pos c] at h2
      omega
    rw [if_neg c] at hp
    constructor
    · rw [last_blocks_eq, if_neg c, List.getD_cons_succ, List.getD_cons_zero, Block_mk_words,
        hl, hp, kBlockBytes]
      apply Block_ofBytes_congr
      intro j hj
      have e : 64 - data.length % 64 + j = 128 - data.length % 64 - 64 + j := by omega
      rw [Nat.zero_add, getD_drop_zero, e]
    · rw [List.length_drop, hl, hp]
      omega

/-- C11, at the three bytes `abc`. -/
theorem sha256_blocks_are_chunks_witness :
    abc.length < 2 ^ 31 ∧ block_count abc.length = abc.length / 64 :=
  ⟨by decide, (sha256_blocks_are_chunks abc (by decide)).1⟩

/-- C12. For every block and every 8-word state `h_` entering it, the state after the block is,
word by word modulo 2^32, the sum of the registers `a..h` after the 64 rounds `t = 0..63`
run from `h_` and of `h_`; a round is `T1 = h + Σ1(e) + Ch(e,f,g) + kK[t] + w[t]`,
`T2 = Σ0(a) + Maj(a,b,c)`, `(a,b,c,d,e,f,g,h) := (T1+T2, a, b, c, d+T1, e, f, g)` modulo
2^32, with `Σ0`, `Σ1`, `Ch` and `Maj` as the standard defines them. -/
theorem process_block_is_64_rounds (h_ : List Nat) (block : Block) (hh : h_.length = 8) :
    process_block h_ block =
      List.zipWith (fun r x => (x + r) % 2 ^ 32)
        ((List.range 64).foldl (fips.step (schedule block)) h_) h_ ∧
    (process_block h_ block).length = 8 ∧
    (∀ (w : List Nat) (a b c d e f g h t : Nat),
      fips.step w [a, b, c, d, e, f, g, h] t =
        [((h + l_sigma_1 e + ch e f g + kK.getD t 0 + w.getD t 0) % 2 ^ 32 +
            (l_sigma_0 a + maj a b c) % 2 ^ 32) % 2 ^ 32, a, b, c,
          (d + (h + l_sigma_1 e + ch e f g + kK.getD t 0 + w.getD t 0) % 2 ^ 32) % 2 ^ 32,
          e, f, g]) ∧
    (∀ x, l_sigma_0 x = rotr 2 x ^^^ rotr 13 x ^^^ rotr 22 x) ∧
    (∀ x, l_sigma_1 x = rotr 6 x ^^^ rotr 11 x ^^^ rotr 25 x) ∧
    (∀ x y z, x < 2 ^ 32 → ch x y z = (x &&& y) ^^^ ((2 ^ 32 - 1 - x) &&& z)) ∧
    (∀ x y z, maj x y z = (x &&& y) ^^^ (x &&& z) ^^^ (y &&& z)) := by
  refine ⟨?_, (process_block_length h_ block).trans hh, ?_, fun _ => rfl, fun _ => rfl, ?_,
    fun _ _ _ => rfl⟩
  · rw [process_block_rounds h_ block hh]
    congr 1
    funext r x
    rw [Nat.add_comm]
  · intro w a b c d e f g h t
    rfl
  · intro x y z hx
    rw [← xor_mask32 x hx]
    rfl

set_option maxRecDepth 100000 in
/-- C12, at the initial hash words and the block of 64 zero bytes. -/
theorem process_block_is_64_rounds_witness :
    kInitialHash.length = 8 ∧
    (process_block kInitialHash (Block.ofBytes [] 0)).length = 8 :=
  ⟨by decide, (process_block_is_64_rounds kInitialHash (Block.ofBytes [] 0) (by decide)).2.1⟩

/-- C13. For every block of 16 words the schedule `w` of `sha256` has 64 words,
`w[t] = block[t]` for `t ≤ 15` and
`w[t] = (s_sigma_1(w[t-2]) + w[t-7] + s_sigma_0(w[t-15]) + w[t-16]) mod 2^32` for
`16 ≤ t ≤ 63`, with `s_sigma_0(x) = rotr 7 xor rotr 18 xor (x >> 3)` and
`s_sigma_1(x) = rotr 17 xor rotr 19 xor (x >> 10)`; the indices read in pass `t` are below
`t`, hence inside `0..63`, and after `t` passes every entry below `t` already has its final
value. -/
theorem schedule_recurrence (block : Block) (hb : block.w.length = 16) :
    (schedule block).length = 64 ∧
    (∀ t, t ≤ 15 → (schedule block)[t]? = some (block.get t)) ∧
    (∀ t, 16 ≤ t → t ≤ 63 →
      (schedule block)[t]? =
        some ((s_sigma_1 ((schedule block).getD (t - 2) 0) + (schedule block).getD (t - 7) 0 +
          s_sigma_0 ((schedule block).getD (t - 15) 0) + (schedule block).getD (t - 16) 0) %
            2 ^ 32)) ∧
    (∀ t, 16 ≤ t → t ≤ 63 → ∀ k, k ∈ [2, 7, 15, 16] → t - k < t ∧ t - k ≤ 63 ∧
      ((List.range t).foldl (schedule_step block) (List.replicate 64 0)).getD (t - k) 0 =
        (schedule block).getD (t - k) 0) ∧
    (∀ x, s_sigma_0 x = rotr 7 x ^^^ rotr 18 x ^^^ (x / 2 ^ 3)) ∧
    (∀ x, s_sigma_1 x = rotr 17 x ^^^ rotr 19 x ^^^ (x / 2 ^ 10)) := by
  have hlen : (schedule block).length = 64 := by
    rw [schedule_eq block hb, fips.message_schedule, extend_length, hb]
  have hget : ∀ t, t < 64 → (schedule block)[t]? = some ((schedule block).getD t 0) :=
    fun t ht => getElem?_eq_some_getD _ t (by omega)
  refine ⟨hlen, ?_, ?_, ?_, ?_, ?_⟩
  · intro t ht
    rw [hget t (by omega)]
    refine congrArg some ?_
    rw [schedule_eq block hb, fips.message_schedule, extend_getD_lt _ _ _ (by omega), Block.get]
  · intro t h1 h2
    rw [hget t (by omega)]
    refine congrArg some ?_
    rw [schedule_eq block hb, fips.message_schedule]
    exact extend_rec 48 block.w t (by omega) (by omega) (by omega)
  · intro t h1 h2 k hk
    simp only [List.mem_cons, List.mem_singleton, List.mem_nil_iff, or_false] at hk
    refine ⟨by omega, by omega, ?_⟩
    exact schedule_partial block hb t (t - k) (by omega) (by omega)
  · intro x
    simp only [s_sigma_0, shr, Nat.shiftRight_eq_div_pow]
  · intro x
    simp only [s_sigma_1, shr, Nat.shiftRight_eq_div_pow]

/-- C13, at the block of 64 zero bytes. -/
theorem schedule_recurrence_witness :
    (Block.ofBytes [] 0).w.length = 16 ∧ (schedule (Block.ofBytes [] 0)).length = 64 :=
  ⟨by decide, (schedule_recurrence (Block.ofBytes [] 0) (by decide)).1⟩

/-- C14, at `data_size = 2^38 + 64`: `block_count` is 1, while `data_size / 64` is
`2^32 + 1`. -/
theorem block_count_wraps_past_2_38 :
    block_count 274877907008 = 1 ∧ 274877907008 / 64 = 4294967297 ∧
      274877907008 < 2 ^ 64 := by
  decide

/-- C15. For every `data_size` `L`, with `B = (L * 8) mod 2^64`, the last 8 bytes of
`get_padding(L)` are the big-endian encoding of `B` if and only if the bytes of `B` at bits
40-47, 48-55 and 56-63 are all equal; they are the encoding for every `L < 2^37`; for
`L = 2^37` the byte at index `size - 8` is `0x01` and the encoding starts with `0x00`. -/
theorem length_field_big_endian_iff (L : Nat) :
    ((get_padding L).drop ((get_padding L).length - 8) = fips.be64 (L * 8 % 2 ^ 64) ↔
      (L * 8 % 2 ^ 64 / 2 ^ 40 % 256 = L * 8 % 2 ^ 64 / 2 ^ 48 % 256 ∧
       L * 8 % 2 ^ 64 / 2 ^ 48 % 256 = L * 8 % 2 ^ 64 / 2 ^ 56 % 256)) ∧
    (L < 2 ^ 37 →
      (get_padding L).drop ((get_padding L).length - 8) = fips.be64 (L * 8 % 2 ^ 64)) ∧
    ((get_padding (2 ^ 37))[(get_padding (2 ^ 37)).length - 8]? = some 1 ∧
      (fips.be64 (2 ^ 37 * 8 % 2 ^ 64))[0]? = some 0) := by
  have hiff : (get_padding L).drop ((get_padding L).length - 8) =
      fips.be64 (L * 8 % 2 ^ 64) ↔
      (L * 8 % 2 ^ 64 / 2 ^ 40 % 256 = L * 8 % 2 ^ 64 / 2 ^ 48 % 256 ∧
       L * 8 % 2 ^ 64 / 2 ^ 48 % 256 = L * 8 % 2 ^ 64 / 2 ^ 56 % 256) := by
    rw [get_padding_last8, be64_eq, data_bits_mod]
    simp only [List.cons.injEq, and_true, true_and, toByte_eq_iff]
    constructor
    · rintro ⟨h1, h2, h3⟩
      omega
    · rintro ⟨h1, h2⟩
      omega
  refine ⟨hiff, ?_, ?_⟩
  · intro hL
    rw [hiff]
    have h40 : L * 8 % 2 ^ 64 / 2 ^ 40 = 0 := Nat.div_eq_of_lt (by omega)
    have h48 : L * 8 % 2 ^ 64 / 2 ^ 48 = 0 := Nat.div_eq_of_lt (by omega)
    have h56 : L * 8 % 2 ^ 64 / 2 ^ 56 = 0 := Nat.div_eq_of_lt (by omega)
    rw [h40, h48, h56]
    exact ⟨rfl, rfl⟩
  · constructor
    · have h := get_padding_last8 (2 ^ 37)
      have hl : (get_padding (2 ^ 37)).length - 8 < (get_padding (2 ^ 37)).length := by
        have hp := padding_size_eq (2 ^ 37)
        rw [length_get_padding, hp]
        split_ifs <;> omega
      rw [← List.head?_drop, h, data_bits_mod]
      decide
    · decide

/-- C16. For every `data_size` `L`: in `get_padding` the eight length-field indices
`size-8 .. size-1` lie in `1 .. size-1` and are pairwise distinct, and index 0 still holds
`0x80` on return; in `sha256` the first copy reads the `L % 64` bytes that end at offset
`data_size`, the second copy takes `64 - L % 64` bytes that the padding vector has and the
two copies fill the 64 bytes of `rem_data` exactly; with two tail blocks the 64 bytes from
offset `size - 64` lie inside the padding vector. -/
theorem padding_and_tail_in_bounds (data : List Byte) (L : Nat) :
    (∀ k, k ∈ [8, 7, 6, 5, 4, 3, 2, 1] →
      1 ≤ (get_padding L).length - k ∧ (get_padding L).length - k ≤ (get_padding L).length - 1 ∧
      (get_padding L).length - k < (get_padding L).length) ∧
    ([8, 7, 6, 5, 4, 3, 2, 1].map fun k => (get_padding L).length - k).Nodup ∧
    (get_padding L)[0]? = some 0x80 ∧
    u64 L - rem_size L + rem_size L = u64 L ∧
    kBlockBytes - rem_size L ≤ (get_padding L).length ∧
    ((get_padding L).take (kBlockBytes - rem_size L)).length = kBlockBytes - rem_size L ∧
    rem_size L + (kBlockBytes - rem_size L) = kBlockBytes ∧
    (rem_data data L).length = kBlockBytes ∧
    (2 ≤ (last_blocks data L).length →
      kBlockBytes ≤ (get_padding L).length ∧
      ((get_padding L).drop ((get_padding L).length - kBlockBytes)).length = kBlockBytes) := by
  have hp := padding_size_eq L
  have hl := length_get_padding L
  have hn := last_blocks_length data L
  have hr := rem_size_eq L
  have hm : L % 64 < 64 := Nat.mod_lt _ (by decide)
  have h9 : 9 ≤ padding_size L := by rw [hp]; split_ifs <;> omega
  have h64 : 64 - L % 64 ≤ padding_size L := by rw [hp]; split_ifs <;> omega
  have hu : u64 L % 64 = L % 64 := u64_mod_64 L
  have hu2 : u64 L % 64 ≤ u64 L := Nat.mod_le _ _
  rw [hl, hr, kBlockBytes]
  refine ⟨?_, ?_, ?_, ?_, h64, ?_, ?_, rem_data_length data L, ?_⟩
  · intro k hk
    simp only [List.mem_cons, List.mem_singleton, List.mem_nil_iff, or_false] at hk
    omega
  · simp only [List.map_cons, List.map_nil, List.nodup_cons, List.mem_cons, List.mem_singleton,
      List.not_mem_nil, List.nodup_nil, or_false, and_true, not_or]
    repeat' constructor
    all_goals first | omega | exact not_false
  · rw [get_padding_eq, List.getElem?_cons_zero]
    decide
  · omega
  · rw [List.length_take, hl]
    omega
  · omega
  · intro h2
    rw [hn] at h2
    have c : ¬ L % 64 ≤ 55 := by
      intro c
      rw [if_pos c] at h2
      omega
    rw [if_neg c] at hp
    rw [List.length_drop, hl]
    omega

set_option maxRecDepth 100000 in
/-- C17. On the 56 bytes `abcdbcdecdefdefgefghfghighijhijkijkljklmklmnlmnomnopnopq` with
`data_size = 56` (two tail blocks), whatever the previous content of the 32-byte output
array, `sha256` stores `248d6a61d20638b8e5c026930c3e6039a33ce45964ff2167f6ecedd419db06c1`. -/
theorem sha256_msg56_input (hash : List Byte) (hh : hash.length = 32) :
    msg56.length = 56 ∧ (last_blocks msg56 56).length = 2 ∧
    sha256 msg56 56 hash = (Error.kErrorOk,
      [0x24, 0x8d, 0x6a, 0x61, 0xd2, 0x06, 0x38, 0xb8, 0xe5, 0xc0, 0x26, 0x93, 0x0c, 0x3e,
       0x60, 0x39, 0xa3, 0x3c, 0xe4, 0x59, 0x64, 0xff, 0x21, 0x67, 0xf6, 0xec, 0xed, 0xd4,
       0x19, 0xdb, 0x06, 0xc1]) := by
  refine ⟨by decide, by rw [last_blocks_length]; rfl, ?_⟩
  unfold sha256
  rw [write_hash_eq _ _ hh]
  decide!

/-- C17, at an output array of zeros. -/
theorem sha256_msg56_input_witness :
    (List.replicate 32 (0 : Byte)).length = 32 ∧
      sha256 msg56 56 (List.replicate 32 0) = (Error.kErrorOk,
        [0x24, 0x8d, 0x6a, 0x61, 0xd2, 0x06, 0x38, 0xb8, 0xe5, 0xc0, 0x26, 0x93, 0x0c, 0x3e,
         0x60, 0x39, 0xa3, 0x3c, 0xe4, 0x59, 0x64, 0xff, 0x21, 0x67, 0xf6, 0xec, 0xed, 0xd4,
         0x19, 0xdb, 0x06, 0xc1]) :=
  ⟨by decide, (sha256_msg56_input (List.replicate 32 0) (by decide)).2.2⟩

set_option maxRecDepth 100000 in
/-- C18. The list `primes` holds the 64 primes below 312 in increasing order (2, .., 311);
for every `i < 64`, with `p` its `i`-th entry and `c = floor(cbrt(p)) * 2^32 + kK[i]`:
`kK[i] < 2^32` and `c^3 ≤ p * 2^96 < (c+1)^3`, so `c` is the integer part of the cube root
of `p * 2^96` and `kK[i]` is `c mod 2^32`. -/
theorem kK_cube_roots :
    kK.length = 64 ∧ primes.length = 64 ∧
    (∀ n, n ∈ primes ↔ n < 312 ∧ Nat.Prime n) ∧
    List.Pairwise (fun a b => a < b) primes ∧
    primes.getD 0 0 = 2 ∧ primes.getD 63 0 = 311 ∧
    ∀ i, i < 64 →
      icbrt (primes.getD i 0) ^ 3 ≤ primes.getD i 0 ∧
      primes.getD i 0 < (icbrt (primes.getD i 0) + 1) ^ 3 ∧
      kK.getD i 0 < 2 ^ 32 ∧
      (icbrt (primes.getD i 0) * 2 ^ 32 + kK.getD i 0) ^ 3 ≤ primes.getD i 0 * 2 ^ 96 ∧
      primes.getD i 0 * 2 ^ 96 < (icbrt (primes.getD i 0) * 2 ^ 32 + kK.getD i 0 + 1) ^ 3 ∧
      (icbrt (primes.getD i 0) * 2 ^ 32 + kK.getD i 0) % 2 ^ 32 = kK.getD i 0 := by
  refine ⟨by decide, by decide!, mem_primes, by decide!, by decide!, by decide!, by decide!⟩

set_option maxRecDepth 100000 in
/-- C19. The first 8 entries of `primes` are 2, 3, 5, 7, 11, 13, 17, 19; for every `i < 8`,
with `p` the `i`-th of them and `c = floor(sqrt(p)) * 2^32 + kInitialHash[i]`:
`kInitialHash[i] < 2^32` and `c^2 ≤ p * 2^64 < (c+1)^2`. -/
theorem kInitialHash_square_roots :
    kInitialHash.length = 8 ∧ primes.take 8 = [2, 3, 5, 7, 11, 13, 17, 19] ∧
    (∀ n, n ∈ primes ↔ n < 312 ∧ Nat.Prime n) ∧
    List.Pairwise (fun a b => a < b) primes ∧
    ∀ i, i < 8 →
      isqrt (primes.getD i 0) ^ 2 ≤ primes.getD i 0 ∧
      primes.getD i 0 < (isqrt (primes.getD i 0) + 1) ^ 2 ∧
      kInitialHash.getD i 0 < 2 ^ 32 ∧
      (isqrt (primes.getD i 0) * 2 ^ 32 + kInitialHash.getD i 0) ^ 2 ≤
        primes.getD i 0 * 2 ^ 64 ∧
      primes.getD i 0 * 2 ^ 64 <
        (isqrt (primes.getD i 0) * 2 ^ 32 + kInitialHash.getD i 0 + 1) ^ 2 := by
  refine ⟨by decide, by decide!, mem_primes, by decide!, by decide!⟩

/-- C20. For every 32-bit word `x` and `1 ≤ n ≤ 31`, `rotr(n, x)` is a 32-bit word whose bit
`j` (`j < 32`) is bit `(j + n) mod 32` of `x`, so `rotr(32 - n, rotr(n, x)) = x`;
`shr(n, x)` is `x / 2^n`; the rotation amounts of the four sigma functions are
2, 13, 22; 6, 11, 25; 7, 18; 17, 19, all between 1 and 31. -/
theorem rotr_is_rotation (x n : Nat) (hx : x < 2 ^ 32) (hn1 : 1 ≤ n) (hn2 : n ≤ 31) :
    rotr n x < 2 ^ 32 ∧
    (∀ j, j < 32 → (rotr n x).testBit j = x.testBit ((j + n) % 32)) ∧
    rotr (32 - n) (rotr n x) = x ∧
    shr n x = x / 2 ^ n ∧
    (∀ y, l_sigma_0 y = rotr 2 y ^^^ rotr 13 y ^^^ rotr 22 y) ∧
    (∀ y, l_sigma_1 y = rotr 6 y ^^^ rotr 11 y ^^^ rotr 25 y) ∧
    (∀ y, s_sigma_0 y = rotr 7 y ^^^ rotr 18 y ^^^ shr 3 y) ∧
    (∀ y, s_sigma_1 y = rotr 17 y ^^^ rotr 19 y ^^^ shr 10 y) ∧
    (∀ k, k ∈ [2, 6, 7, 11, 13, 17, 18, 19, 22, 25] → 1 ≤ k ∧ k ≤ 31) :=
  ⟨rotr_lt n x hx, fun j hj => rotr_testBit n x j hn1 hn2 hx hj, rotr_inverse n x hn1 hn2 hx,
    Nat.shiftRight_eq_div_pow x n, fun _ => rfl, fun _ => rfl, fun _ => rfl, fun _ => rfl,
    by decide⟩

/-- C20, at `x = 0x6A09E667` and `n = 7`. -/
theorem rotr_is_rotation_witness :
    0x6A09E667 < 2 ^ 32 ∧ 1 ≤ 7 ∧ 7 ≤ 31 ∧ rotr (32 - 7) (rotr 7 0x6A09E667) = 0x6A09E667 :=
  ⟨by decide, by decide, by decide,
    (rotr_is_rotation 0x6A09E667 7 (by decide) (by decide) (by decide)).2.2.1⟩
